import Mathlib

/-
Verification of the zsh-history merge tool (`zip.py`).

The development shallowly embeds the pure core of the program:

* `zh_line_match`     — the record-header regex `^: (\d+):(\d+);(.*)$` on one
                        physical line (the regex's `\d` is Unicode-decimal in
                        Python; the embedding uses ASCII `Char.isDigit`, which
                        covers every input the tool's own writer can produce
                        and does not affect any claim below);
* `linereader`        — the record parser with continuation handling, yielding
                        either the list of records or the fatal parse error
                        (filename plus 1-based line number) the script's
                        `assert` raises;
* `linewriter`        — the serializer `": %s:%s;%s\n"`;
* `myhash`            — the dedup fingerprint.  The script computes
                        `blake2b(repr((d, e, c)))[:32]`; `repr` is injective on
                        string triples and the digest is assumed collision-free
                        (the spec itself requires a collision-resistant hash),
                        so the embedding models the fingerprint by an explicit
                        injective byte-encoding of the triple;
* `dedupenext`        — the duplicate-skipping pull of the next record;
* `zipreaders`        — the k-way merge loop with its strict-`<` minimum scan.

Strings are modelled by `List Char` so that structural recursion mirrors the
character-level behaviour of the Python string operations; machine text is a
`List Char` stream split into physical lines exactly as Python's line
iteration does (each line keeps its trailing newline, the final line may lack
one).
-/

/-- Record: one `(timestamp, duration, payload)` triple, all three fields kept
as the verbatim character strings the script manipulates. -/
abbrev Record : Type := List Char × List Char × List Char

/-- Line: one physical line of input (as a character list). -/
abbrev Line : Type := List Char

/-- Fingerprint bytes: the modelled codomain of `myhash`. -/
abbrev Fp : Type := List (Option Char)

/-- Python `str.rstrip("\n")`: drop every trailing newline character. -/
def rstripNl (l : List Char) : List Char :=
  (l.reverse.dropWhile (fun c => c == '\n')).reverse

/-- Python `str.endswith("\\")` on a character list. -/
def endsBS (l : List Char) : Bool :=
  l.getLast? == some '\\'

/-- Model of matching `zh_line_re = ^: (\d+):(\d+);(.*)$` against a line that
has already been stripped of trailing newlines.  `\d+` is maximal-munch here,
which coincides with the regex because the characters `:` and `;` that must
follow each digit group are not digits, so no backtracked shorter digit run
can ever succeed; `.` does not match `'\n'` and `$` must be the end of the
string (the line has no trailing newline left), so a match requires the
contents group to be newline-free. -/
def zh_line_match (line : List Char) : Option (List Char × List Char × List Char) :=
  match line with
  | ':' :: ' ' :: rest =>
    if (rest.takeWhile Char.isDigit).isEmpty then none else
    match rest.dropWhile Char.isDigit with
    | ':' :: r2 =>
      if (r2.takeWhile Char.isDigit).isEmpty then none else
      match r2.dropWhile Char.isDigit with
      | ';' :: cs =>
        if cs.contains '\n' then none
        else some (rest.takeWhile Char.isDigit, r2.takeWhile Char.isDigit, cs)
      | _ => none
    | _ => none
  | _ => none

/-- Fatal parser errors of `linereader`: the `assert` messages carry the file
name, and for a header non-match also the 1-based line number. -/
inductive ParseErr where
  | nonMatch : String → Nat → ParseErr
  | unterminated : String → ParseErr
deriving DecidableEq

/-- Result of running the record parser to completion: either every record in
order, or the fatal error that aborted it. -/
inductive ParseResult where
  | ok : List Record → ParseResult
  | err : ParseErr → ParseResult
deriving DecidableEq

/-- Prepend an emitted record to a parse result, passing errors through. -/
def ParseResult.consRec (r : Record) : ParseResult → ParseResult
  | .ok rs => .ok (r :: rs)
  | .err e => .err e

/-- One step at a time embedding of the `linereader` loop.  `lno` is the count
of lines already consumed (the script's `lno` before the increment), `pend`
the record under construction while `continuation` is true. -/
def linereaderAux (fn : String) : Nat → Option Record → List Line → ParseResult
  | _, none, [] => .ok []
  | _, some _, [] => .err (.unterminated fn)
  | lno, none, l :: rest =>
    let line := rstripNl l
    match zh_line_match line with
    | none => .err (.nonMatch fn (lno + 1))
    | some (d, e, cs) =>
      let contents := rstripNl cs
      if endsBS contents then
        linereaderAux fn (lno + 1) (some (d, e, contents)) rest
      else
        (linereaderAux fn (lno + 1) none rest).consRec (d, e, contents)
  | lno, some (d, e, acc), l :: rest =>
    let line := rstripNl l
    let contents := acc ++ '\n' :: line
    if endsBS line then
      linereaderAux fn (lno + 1) (some (d, e, contents)) rest
    else
      (linereaderAux fn (lno + 1) none rest).consRec (d, e, contents)

/-- The record parser on the physical lines of one file. -/
def linereader (fn : String) (lines : List Line) : ParseResult :=
  linereaderAux fn 0 none lines

/-- Split a character stream into physical lines the way Python's text-mode
line iteration does: the streams are opened without a `newline` argument
(`newline=None`, src/zip.py:77-78 and 83), so universal-newline translation
is in effect — a lone `'\r'` or a `"\r\n"` pair terminates a line and is
translated to `'\n'`.  Every line keeps its (translated) terminating
newline, and a final chunk without one is still a line. -/
def splitLinesAux (acc : List Char) : List Char → List Line
  | [] => if acc.isEmpty then [] else [acc.reverse]
  | c :: rest =>
    if c == '\n' then (acc.reverse ++ ['\n']) :: splitLinesAux [] rest
    else if c == '\r' then
      match rest with
      | '\n' :: rest' => (acc.reverse ++ ['\n']) :: splitLinesAux [] rest'
      | [] => [acc.reverse ++ ['\n']]
      | c' :: rest' => (acc.reverse ++ ['\n']) :: splitLinesAux [] (c' :: rest')
    else splitLinesAux (c :: acc) rest

/-- Physical lines of a whole text. -/
def splitLinesKeep (text : List Char) : List Line :=
  splitLinesAux [] text

/-- Parse a whole text: split into physical lines, then run `linereader`. -/
def parseText (fn : String) (text : List Char) : ParseResult :=
  linereader fn (splitLinesKeep text)

/-- Serialization of one record, `": %s:%s;%s\n"`, the payload copied
verbatim. -/
def wireLine (r : Record) : List Char :=
  ':' :: ' ' :: r.1 ++ ':' :: r.2.1 ++ ';' :: r.2.2 ++ ['\n']

/-- The writer `linewriter`: the text written to the output stream for a
record sequence. -/
def linewriter (rs : List Record) : List Char :=
  (rs.map wireLine).flatten

/-- Fingerprint of a record.  Models `blake2b(repr(obj))[:32]` by the
injective encoding of the triple that is fed (via `repr`) to the hash: the
digest itself is taken collision-free, exactly the assumption the program and
the spec place on the hash. -/
def myhash (r : Record) : Fp :=
  (r.1.map some) ++ none :: (r.2.1.map some) ++ none :: (r.2.2.map some)

/-- The duplicate-skipping pull `dedupenext`: consume records from `rdr`
while their fingerprint is already in `dups`; on finding a fresh record,
record its fingerprint and hand back the record, the grown set and the rest
of the reader; on exhaustion hand back `none` with `dups` unchanged. -/
def dedupenext (rdr : List Record) (dups : List Fp) :
    Option Record × List Fp × List Record :=
  match rdr with
  | [] => (none, dups, [])
  | x :: rest =>
    if myhash x ∈ dups then dedupenext rest dups
    else (some x, myhash x :: dups, rest)

/-- Initial fill of the pending slots: `dedupenext` on each reader in input
order, threading the shared `dups` set left to right. -/
def fillSlots (dups : List Fp) :
    List (List Record) → List (Option Record × List Record) × List Fp
  | [] => ([], dups)
  | rdr :: rest =>
    let t := dedupenext rdr dups
    let f := fillSlots t.2.1 rest
    ((t.1, t.2.2) :: f.1, f.2)

/-- Decimal value of a digit string, the value `int()` returns on it. -/
def decimalVal (s : List Char) : Nat :=
  s.foldl (fun a c => a * 10 + (c.toNat - '0'.toNat)) 0

/-- Model of Python `int()` restricted to the strings at play here: it
succeeds exactly on nonempty all-digit strings (on anything else the script
would raise `ValueError`). -/
def pyInt (s : List Char) : Option Nat :=
  if s ≠ [] ∧ s.all Char.isDigit then some (decimalVal s) else none

/-- Merge key of a record: `int(datetime)` as a total function on the digit
strings the parser produces. -/
def key (r : Record) : Nat :=
  decimalVal r.1

/-- The minimum scan of the merge loop: running over the slots left to right
with the running `(lowest, idx)` pair, replacing it only on a strictly
smaller key — so the first slot attaining the global minimum wins. -/
def selLoop (i : Nat) (best : Option (Nat × Nat)) :
    List (Option Record) → Option (Nat × Nat)
  | [] => best
  | o :: rest =>
    match o with
    | none => selLoop (i + 1) best rest
    | some r =>
      match best with
      | none => selLoop (i + 1) (some (key r, i)) rest
      | some (lo, idx) =>
        if key r < lo then selLoop (i + 1) (some (key r, i)) rest
        else selLoop (i + 1) (some (lo, idx)) rest

/-- Index selected by the merge loop's scan, `none` when every slot is
empty (the loop's termination test). -/
def selIdx (nexts : List (Option Record)) : Option Nat :=
  (selLoop 0 none nexts).map (fun p => p.2)

/-- Fuel weight of one slot: pending records still to be emitted through it. -/
def slotWeight : Option Record × List Record → Nat
  | (none, rdr) => rdr.length
  | (some _, rdr) => rdr.length + 1

/-- Fuel weight of the whole slot state. -/
def slotsWeight (slots : List (Option Record × List Record)) : Nat :=
  (slots.map slotWeight).sum

/-- The merge loop, structurally recursive on a fuel bound (each iteration
strictly decreases `slotsWeight`, so `slotsWeight + 1` fuel runs it to
completion).  The two `[]` fallbacks of the inner match are unreachable:
`selIdx` only returns indices of slots holding a record. -/
def zipAuxF : Nat → List (Option Record × List Record) → List Fp → List Record
  | 0, _, _ => []
  | fuel + 1, slots, dups =>
    match selIdx (slots.map Prod.fst) with
    | none => []
    | some idx =>
      match slots[idx]? with
      | some (some r, rdr) =>
        let t := dedupenext rdr dups
        r :: zipAuxF fuel (slots.set idx (t.1, t.2.2)) t.2.1
      | _ => []

/-- The merger `zipreaders`: fill every slot, then run the merge loop. -/
def zipreaders (readers : List (List Record)) : List Record :=
  let f := fillSlots [] readers
  zipAuxF (slotsWeight f.1 + 1) f.1 f.2

/-- Payload segments: the payload split at its embedded newlines (the
physical lines its wire form occupies). -/
def splitNl : List Char → List (List Char)
  | [] => [[]]
  | c :: rest =>
    if c = '\n' then [] :: splitNl rest
    else (c :: (splitNl rest).headI) :: (splitNl rest).tail

/-- Join segments back with newlines (inverse of `splitNl`). -/
def joinNl : List (List Char) → List Char
  | [] => []
  | [s] => s
  | s :: rest => s ++ '\n' :: joinNl rest

/-- Payload accumulated by the continuation loop: the header contents
followed by each continuation line, each join contributing one newline. -/
def joinCont (acc : List Char) (mids : List (List Char)) : List Char :=
  acc ++ (mids.map (fun m => '\n' :: m)).flatten

/-- Shape of the continuation lines of one record: every line but the last
ends with the marker backslash, the last does not. -/
def contShape : List (List Char) → Bool
  | [] => false
  | [m] => !endsBS m
  | m :: m' :: rest => endsBS m && contShape (m' :: rest)

/-- Shape of a payload's segments as the parser leaves them: every non-final
segment still carries its trailing continuation marker. -/
def markedSegs : List (List Char) → Bool
  | s :: s' :: rest => endsBS s && markedSegs (s' :: rest)
  | _ => true

/-- Wire-safety of a record: digit-string timestamp and duration, payload
segments carrying the parser's retained markers with an unmarked final
segment, and a carriage-return-free payload (the readers open files with
universal newlines, `newline=None` at src/zip.py:77-78 and 83, so a `'\r'`
written into a payload would split a physical line on re-read).  Exactly
the records `linereader` itself can produce, and exactly those whose
`linewriter` output re-parses to themselves. -/
def wireSafe (r : Record) : Bool :=
  !r.1.isEmpty && r.1.all Char.isDigit &&
  !r.2.1.isEmpty && r.2.1.all Char.isDigit &&
  markedSegs (splitNl r.2.2) &&
  !endsBS ((splitNl r.2.2).getLastD []) &&
  !decide ('\r' ∈ r.2.2)

/-- Drop one trailing backslash from a segment (used to compare the writer
with the spec's marker-re-inserting writer). -/
def dropBS (s : List Char) : List Char :=
  if endsBS s then s.dropLast else s

/-- Strip the retained continuation markers from a payload's non-final
segments, giving the marker-free payload the spec's §4.2 parser would hold. -/
def stripSegs : List (List Char) → List (List Char)
  | [] => []
  | [s] => [s]
  | s :: s' :: rest => dropBS s :: stripSegs (s' :: rest)

/-- Marker-stripped form of a record. -/
def stripMarkers (r : Record) : Record :=
  (r.1, r.2.1, joinNl (stripSegs (splitNl r.2.2)))

/-- Join segments with a continuation marker followed by a newline between
them (the rendering the spec's §4.4 words ask for). -/
def joinBS : List (List Char) → List Char
  | [] => []
  | [s] => s
  | s :: rest => s ++ '\\' :: '\n' :: joinBS rest

/-- Serialization of one record as the spec's §4.4 RecordWriter words
describe it: re-insert the continuation marker and a newline at every line
break of the payload except after the final segment.  This definition follows
the spec's words, for comparison with the source's `wireLine`. -/
def wireLineSpec (r : Record) : List Char :=
  ':' :: ' ' :: r.1 ++ ':' :: r.2.1 ++ ';' :: joinBS (splitNl r.2.2) ++ ['\n']

/-- RecordWriter as the spec's words describe it, payload breaks rendered as
marker plus newline. -/
def lineWriterSpec (rs : List Record) : List Char :=
  (rs.map wireLineSpec).flatten

/-- Append already-emitted records in front of a later parse result (errors
pass through), describing how `linereaderAux` composes over an input split. -/
def ParseResult.appendRecs (rs : List Record) : ParseResult → ParseResult
  | .ok rs' => .ok (rs ++ rs')
  | .err e => .err e

/-- Digit-string shape of a record's numeric fields, as the header regex
guarantees them: nonempty, decimal digits only. -/
def digitFields (r : Record) : Prop :=
  r.1 ≠ [] ∧ r.1.all Char.isDigit ∧ r.2.1 ≠ [] ∧ r.2.1.all Char.isDigit

/-- Sortedness by the merge key (timestamp compared as an integer),
nondecreasing. -/
abbrev sortedByKey (l : List Record) : Prop :=
  l.Pairwise (fun a b => key a ≤ key b)

/-- Invariant of one pending slot for the ordering proof: its reader is
sorted and its pending record is a lower bound of the reader. -/
def SlotInv (s : Option Record × List Record) : Prop :=
  sortedByKey s.2 ∧ ∀ r, s.1 = some r → ∀ y ∈ s.2, key r ≤ key y

/-- Slot `i` currently holds the pending record `r`. -/
def HeadAt (slots : List (Option Record × List Record)) (i : Nat) (r : Record) : Prop :=
  ∃ rdr, slots[i]? = some (some r, rdr)

/-- Record `r` still waits inside some slot's reader. -/
def RemAt (slots : List (Option Record × List Record)) (r : Record) : Prop :=
  ∃ (i : Nat) (s : Option Record × List Record), slots[i]? = some s ∧ r ∈ s.2

/-- State invariant of the merge loop: every pending record's fingerprint is
already in `dups`, pending records are pairwise distinct, and an exhausted
slot has an empty reader. -/
def MergeInv (slots : List (Option Record × List Record)) (dups : List Fp) : Prop :=
  (∀ i r, HeadAt slots i r → myhash r ∈ dups) ∧
  (∀ i j ri rj, i ≠ j → HeadAt slots i ri → HeadAt slots j rj → ri ≠ rj) ∧
  (∀ (i : Nat) (rdr : List Record), slots[i]? = some (none, rdr) → rdr = [])

/-! ### String-operation helpers -/

theorem takeWhile_digits_append (d t : List Char) (c0 : Char)
    (hd : d.all Char.isDigit = true) (hc : Char.isDigit c0 = false) :
    (d ++ c0 :: t).takeWhile Char.isDigit = d ∧
    (d ++ c0 :: t).dropWhile Char.isDigit = c0 :: t := by
  induction d with
  | nil => simp [List.takeWhile_cons, List.dropWhile_cons, hc]
  | cons a d ih =>
    simp only [List.all_cons, Bool.and_eq_true] at hd
    simp [List.takeWhile_cons, List.dropWhile_cons, hd.1, ih hd.2]

theorem dropWhile_nl_eq_self (l : List Char) (h : '\n' ∉ l) :
    l.dropWhile (fun c => c == '\n') = l := by
  cases l with
  | nil => rfl
  | cons a l =>
    have ha : (a == '\n') = false := by
      simp only [beq_eq_false_iff_ne]
      intro hx; exact h (hx ▸ List.mem_cons_self a l)
    simp [List.dropWhile_cons, ha]

theorem rstripNl_of_no_nl (l : List Char) (h : '\n' ∉ l) : rstripNl l = l := by
  unfold rstripNl
  rw [dropWhile_nl_eq_self _ (by simpa using h), List.reverse_reverse]

theorem rstripNl_append_nl (l : List Char) (h : '\n' ∉ l) :
    rstripNl (l ++ ['\n']) = l := by
  unfold rstripNl
  rw [List.reverse_append]
  simp only [List.reverse_cons, List.reverse_nil, List.nil_append, List.singleton_append,
    List.dropWhile_cons, beq_self_eq_true, if_true]
  rw [dropWhile_nl_eq_self _ (by simpa using h), List.reverse_reverse]

theorem endsBS_append_singleton (l : List Char) (c : Char) :
    endsBS (l ++ [c]) = (c == '\\') := by
  unfold endsBS
  rw [List.getLast?_concat]
  cases h : c == '\\' <;> simp_all

/-! ### Header-regex characterization -/

theorem zh_line_match_eq_some (line d e c : List Char) :
    zh_line_match line = some (d, e, c) ↔
      (line = ':' :: ' ' :: (d ++ ':' :: (e ++ ';' :: c)) ∧ d ≠ [] ∧
       d.all Char.isDigit = true ∧ e ≠ [] ∧ e.all Char.isDigit = true ∧
       c.contains '\n' = false) := by
  constructor
  · intro h
    unfold zh_line_match at h
    split at h
    case h_2 => simp at h
    case h_1 rest =>
      split at h
      case isTrue => simp at h
      case isFalse hds =>
        split at h
        case h_2 => simp at h
        case h_1 r2 hr2 =>
          split at h
          case isTrue => simp at h
          case isFalse hes =>
            split at h
            case h_2 => simp at h
            case h_1 cs hcs =>
              split at h
              case isTrue => simp at h
              case isFalse hnl =>
                rw [Option.some_inj, Prod.mk.injEq, Prod.mk.injEq] at h
                obtain ⟨h1, h2, h3⟩ := h
                have hrest : rest = d ++ ':' :: r2 := by
                  rw [← h1, ← hr2, List.takeWhile_append_dropWhile]
                have hr2e : r2 = e ++ ';' :: cs := by
                  rw [← h2, ← hcs, List.takeWhile_append_dropWhile]
                refine ⟨?_, ?_, ?_, ?_, ?_, ?_⟩
                · rw [hrest, hr2e, h3]
                · intro hd0; rw [h1, hd0] at hds; simp at hds
                · rw [← h1]
                  exact List.all_eq_true.mpr (fun x hx => List.mem_takeWhile_imp hx)
                · intro he0; rw [h2, he0] at hes; simp at hes
                · rw [← h2]
                  exact List.all_eq_true.mpr (fun x hx => List.mem_takeWhile_imp hx)
                · rw [← h3]; simpa using hnl
  · rintro ⟨hline, hdne, hdall, hene, heall, hnl⟩
    subst hline
    obtain ⟨ht1, hd1⟩ :=
      takeWhile_digits_append d (e ++ ';' :: c) ':' hdall (by decide)
    obtain ⟨ht2, hd2⟩ := takeWhile_digits_append e c ';' heall (by decide)
    simp only [zh_line_match, ht1, hd1, ht2, hd2]
    simp [List.isEmpty_iff, hdne, hene, hnl]
    simpa using hnl

/-! ### Parser structure lemmas -/

theorem consRec_eq_ok {r : Record} {p : ParseResult} {rs : List Record}
    (h : p.consRec r = .ok rs) : ∃ rs', p = .ok rs' ∧ rs = r :: rs' := by
  cases p with
  | ok rs' =>
    refine ⟨rs', rfl, ?_⟩
    have := h
    simp only [ParseResult.consRec, ParseResult.ok.injEq] at this
    exact this.symm
  | err e => simp [ParseResult.consRec] at h

theorem appendRecs_nil (p : ParseResult) : ParseResult.appendRecs [] p = p := by
  cases p <;> rfl

theorem consRec_appendRecs (r : Record) (rs : List Record) (p : ParseResult) :
    (ParseResult.appendRecs rs p).consRec r = ParseResult.appendRecs (r :: rs) p := by
  cases p <;> rfl

theorem linereaderAux_digitFields (fn : String) :
    ∀ (lines : List Line) (lno : Nat) (pend : Option Record) (rs : List Record),
      (∀ d e a, pend = some (d, e, a) → digitFields (d, e, a)) →
      linereaderAux fn lno pend lines = .ok rs →
      ∀ r ∈ rs, digitFields r := by
  intro lines
  induction lines with
  | nil =>
    intro lno pend rs hp h r hr
    cases pend with
    | none =>
      simp only [linereaderAux, ParseResult.ok.injEq] at h
      subst h; cases hr
    | some q => simp [linereaderAux] at h
  | cons l rest ih =>
    intro lno pend rs hp h r hr
    cases pend with
    | none =>
      cases hm : zh_line_match (rstripNl l) with
      | none =>
        simp only [linereaderAux, hm] at h
        exact absurd h (by simp)
      | some trip =>
        obtain ⟨d, e, cs⟩ := trip
        simp only [linereaderAux, hm] at h
        have hdig : digitFields (d, e, rstripNl cs) := by
          obtain ⟨-, hd1, hd2, hd3, hd4, -⟩ := (zh_line_match_eq_some _ d e cs).mp hm
          exact ⟨hd1, hd2, hd3, hd4⟩
        by_cases hb : endsBS (rstripNl cs) = true
        · rw [if_pos hb] at h
          exact ih (lno + 1) _ rs (fun d' e' a' hq => by cases hq; exact hdig) h r hr
        · rw [if_neg hb] at h
          obtain ⟨rs', hres, hcons⟩ := consRec_eq_ok h
          subst hcons
          rw [List.mem_cons] at hr
          rcases hr with hr | hr
          · rw [hr]; exact hdig
          · exact ih (lno + 1) none rs' (fun d' e' a' hq => by cases hq) hres r hr
    | some q =>
      obtain ⟨d, e, acc⟩ := q
      simp only [linereaderAux] at h
      have hdig : digitFields (d, e, acc ++ '\n' :: rstripNl l) := by
        have hq := hp d e acc rfl
        exact ⟨hq.1, hq.2.1, hq.2.2.1, hq.2.2.2⟩
      by_cases hb : endsBS (rstripNl l) = true
      · rw [if_pos hb] at h
        exact ih (lno + 1) _ rs (fun d' e' a' hq => by cases hq; exact hdig) h r hr
      · rw [if_neg hb] at h
        obtain ⟨rs', hres, hcons⟩ := consRec_eq_ok h
        subst hcons
        rw [List.mem_cons] at hr
        rcases hr with hr | hr
        · rw [hr]; exact hdig
        · exact ih (lno + 1) none rs' (fun d' e' a' hq => by cases hq) hres r hr

theorem linereaderAux_append (fn : String) :
    ∀ (pre : List Line) (lno : Nat) (pend : Option Record) (rs : List Record),
      linereaderAux fn lno pend pre = .ok rs →
      ∀ tail, linereaderAux fn lno pend (pre ++ tail) =
        ParseResult.appendRecs rs (linereaderAux fn (lno + pre.length) none tail) := by
  intro pre
  induction pre with
  | nil =>
    intro lno pend rs h tail
    cases pend with
    | none =>
      simp only [linereaderAux, ParseResult.ok.injEq] at h
      subst h
      simp [appendRecs_nil]
    | some q => simp [linereaderAux] at h
  | cons l rest ih =>
    intro lno pend rs h tail
    have hlen : lno + (l :: rest).length = (lno + 1) + rest.length := by
      simp only [List.length_cons]; omega
    rw [hlen, List.cons_append]
    cases pend with
    | none =>
      cases hm : zh_line_match (rstripNl l) with
      | none =>
        simp only [linereaderAux, hm] at h
        exact absurd h (by simp)
      | some trip =>
        obtain ⟨d, e, cs⟩ := trip
        simp only [linereaderAux, hm] at h ⊢
        by_cases hb : endsBS (rstripNl cs) = true
        · rw [if_pos hb] at h ⊢
          exact ih (lno + 1) _ rs h tail
        · rw [if_neg hb] at h ⊢
          obtain ⟨rs', hres, hcons⟩ := consRec_eq_ok h
          subst hcons
          rw [ih (lno + 1) none rs' hres tail, consRec_appendRecs]
    | some q =>
      obtain ⟨d, e, acc⟩ := q
      simp only [linereaderAux] at h ⊢
      by_cases hb : endsBS (rstripNl l) = true
      · rw [if_pos hb] at h ⊢
        exact ih (lno + 1) _ rs h tail
      · rw [if_neg hb] at h ⊢
        obtain ⟨rs', hres, hcons⟩ := consRec_eq_ok h
        subst hcons
        rw [ih (lno + 1) none rs' hres tail, consRec_appendRecs]

/-! ### Claims about the parser (C9, C8, C4 counterexample, C10) -/

/-- C9: every Record the parser emits has nonempty all-decimal-digit
timestamp and duration strings (the header regex guarantees it), so the
merger's `int(datetime)` conversion is total on parser-produced records and
computes exactly the merge key. -/
theorem claim_parser_digit_fields (fn : String) (lines : List Line) (rs : List Record)
    (h : linereader fn lines = .ok rs) :
    ∀ r ∈ rs, digitFields r ∧ pyInt r.1 = some (key r) ∧ (pyInt r.2.1).isSome = true := by
  intro r hr
  have hd := linereaderAux_digitFields fn lines 0 none rs (fun d e a hq => by cases hq) h r hr
  refine ⟨hd, ?_, ?_⟩
  · unfold pyInt key
    rw [if_pos ⟨hd.1, hd.2.1⟩]
  · unfold pyInt
    rw [if_pos ⟨hd.2.2.1, hd.2.2.2⟩]
    rfl

theorem claim_parser_digit_fields_witness :
    linereader "h" [(": 12:3;ls").data] = .ok [(("12").data, ("3").data, ("ls").data)] ∧
    (digitFields (("12").data, ("3").data, ("ls").data) ∧
      pyInt ("12").data = some (key (("12").data, ("3").data, ("ls").data)) ∧
      (pyInt ("3").data).isSome = true) := by
  refine ⟨by decide, ?_⟩
  exact claim_parser_digit_fields "h" [(": 12:3;ls").data]
    [(("12").data, ("3").data, ("ls").data)] (by decide)
    (("12").data, ("3").data, ("ls").data) (by simp)

/-- C8: a physical line that fails the header pattern while the parser is
not in continuation mode aborts parsing with a fatal error naming the file
and the 1-based number of the offending line; the run produces the error
alone, no Record for that line. -/
theorem claim_parse_error_location (fn : String) (pre : List Line) (rs : List Record)
    (bad : Line) (tail : List Line)
    (hpre : linereader fn pre = .ok rs)
    (hbad : zh_line_match (rstripNl bad) = none) :
    linereader fn (pre ++ bad :: tail) = .err (.nonMatch fn (pre.length + 1)) := by
  unfold linereader at hpre ⊢
  rw [linereaderAux_append fn pre 0 none rs hpre (bad :: tail)]
  simp only [linereaderAux, hbad, Nat.zero_add]
  rfl

theorem claim_parse_error_location_witness :
    linereader "h" (([(": 1:0;a").data] : List Line) ++ ("oops").data :: []) =
      .err (.nonMatch "h" 2) := by
  exact claim_parse_error_location "h" [(": 1:0;a").data]
    [(("1").data, ("0").data, ("a").data)] (("oops").data) [] (by decide) (by decide)

/-- C4 counterexample: a record spanning two physical lines joined by a
continuation marker parses into one Record whose payload has exactly one
embedded newline but still CONTAINS the marker backslash byte — `linereader`
never strips the trailing backslash, so the claim that no continuation-marker
byte is retained is false on the code. -/
theorem claim_continuation_counterexample :
    linereader "h" [(": 1:2;a\\").data, ("b").data] =
      .ok [(("1").data, ("2").data, ("a\\\nb").data)] ∧
    '\\' ∈ ("a\\\nb").data ∧ (("a\\\nb").data).count '\n' = 1 := by
  decide

/-- C10: the parser keeps timestamp and duration verbatim (`07` stays
`07`), the writer emits the stored strings unchanged, two records whose
timestamps differ only in leading zeros share a merge key (integer
comparison) yet have different fingerprints, and the merger emits both. -/
theorem claim_leading_zero_distinct :
    linereader "a" [(": 07:0;x").data] = .ok [(("07").data, ("0").data, ("x").data)] ∧
    linereader "b" [(": 7:0;x").data] = .ok [(("7").data, ("0").data, ("x").data)] ∧
    linewriter [(("07").data, ("0").data, ("x").data)] = (": 07:0;x\n").data ∧
    linewriter [(("7").data, ("0").data, ("x").data)] = (": 7:0;x\n").data ∧
    key (("07").data, ("0").data, ("x").data) = key (("7").data, ("0").data, ("x").data) ∧
    myhash (("07").data, ("0").data, ("x").data) ≠ myhash (("7").data, ("0").data, ("x").data) ∧
    zipreaders [[(("07").data, ("0").data, ("x").data)], [(("7").data, ("0").data, ("x").data)]] =
      [(("07").data, ("0").data, ("x").data), (("7").data, ("0").data, ("x").data)] := by
  decide

/-! ### Segment split/join lemmas -/

theorem joinCont_cons (acc m : List Char) (mids : List (List Char)) :
    joinCont acc (m :: mids) = joinCont (acc ++ '\n' :: m) mids := by
  simp [joinCont, List.append_assoc]

theorem joinNl_eq_joinCont (s : List Char) (mids : List (List Char)) :
    joinNl (s :: mids) = joinCont s mids := by
  induction mids generalizing s with
  | nil => simp [joinNl, joinCont]
  | cons m mids ih =>
    simp only [joinNl]
    rw [ih m]
    simp [joinCont, List.append_assoc]

theorem splitNl_cons_nl (rest : List Char) :
    splitNl ('\n' :: rest) = [] :: splitNl rest := by
  simp [splitNl]

theorem splitNl_cons_ne (a : Char) (rest : List Char) (ha : a ≠ '\n') :
    splitNl (a :: rest) = (a :: (splitNl rest).headI) :: (splitNl rest).tail := by
  simp [splitNl, ha]

theorem splitNl_ne_nil (c : List Char) : splitNl c ≠ [] := by
  induction c with
  | nil => simp [splitNl]
  | cons a rest ih =>
    by_cases ha : a = '\n'
    · subst ha; rw [splitNl_cons_nl]; simp
    · rw [splitNl_cons_ne a rest ha]; simp

theorem splitNl_dest (c : List Char) :
    ∃ t ts, splitNl c = t :: ts := by
  cases h : splitNl c with
  | nil => exact absurd h (splitNl_ne_nil c)
  | cons t ts => exact ⟨t, ts, rfl⟩

theorem splitNl_nl_free : ∀ (c : List Char), ∀ s ∈ splitNl c, '\n' ∉ s := by
  intro c
  induction c with
  | nil =>
    intro s hs
    simp only [splitNl, List.mem_singleton] at hs
    simp [hs]
  | cons a rest ih =>
    intro s hs
    obtain ⟨t, ts, hsp⟩ := splitNl_dest rest
    by_cases ha : a = '\n'
    · subst ha
      rw [splitNl_cons_nl] at hs
      rcases List.mem_cons.mp hs with hs | hs
      · simp [hs]
      · exact ih s hs
    · rw [splitNl_cons_ne a rest ha, hsp] at hs
      simp only [List.headI, List.tail_cons] at hs
      rcases List.mem_cons.mp hs with hs | hs
      · subst hs
        intro hmem
        rcases List.mem_cons.mp hmem with h1 | h1
        · exact ha h1.symm
        · exact ih t (hsp ▸ List.mem_cons_self t ts) h1
      · exact ih s (hsp ▸ List.mem_cons_of_mem t hs)

theorem splitNl_single (s : List Char) (h : '\n' ∉ s) : splitNl s = [s] := by
  induction s with
  | nil => rfl
  | cons a rest ih =>
    have ha : a ≠ '\n' := fun hx => h (hx ▸ List.mem_cons_self a rest)
    have hr : '\n' ∉ rest := fun hx => h (List.mem_cons_of_mem a hx)
    rw [splitNl_cons_ne a rest ha, ih hr]
    rfl

theorem splitNl_append_nl (s X : List Char) (h : '\n' ∉ s) :
    splitNl (s ++ '\n' :: X) = s :: splitNl X := by
  induction s with
  | nil => simp [splitNl_cons_nl]
  | cons a rest ih =>
    have ha : a ≠ '\n' := fun hx => h (hx ▸ List.mem_cons_self a rest)
    have hr : '\n' ∉ rest := fun hx => h (List.mem_cons_of_mem a hx)
    rw [List.cons_append, splitNl_cons_ne a _ ha, ih hr]
    rfl

theorem splitNl_joinNl : ∀ (segs : List (List Char)), segs ≠ [] →
    (∀ s ∈ segs, '\n' ∉ s) → splitNl (joinNl segs) = segs := by
  intro segs
  induction segs with
  | nil => intro h; exact absurd rfl h
  | cons s rest ih =>
    intro _ hfree
    cases rest with
    | nil =>
      simp only [joinNl]
      exact splitNl_single s (hfree s (List.mem_cons_self s []))
    | cons m rest' =>
      simp only [joinNl]
      rw [splitNl_append_nl s (joinNl (m :: rest'))
        (hfree s (List.mem_cons_self s (m :: rest')))]
      rw [ih (by simp) (fun t ht => hfree t (List.mem_cons_of_mem s ht))]

theorem count_nl_flatten_cons (mids : List (List Char))
    (hm : ∀ m ∈ mids, '\n' ∉ m) :
    ((mids.map (fun m => '\n' :: m)).flatten).count '\n' = mids.length := by
  induction mids with
  | nil => rfl
  | cons m mids ih =>
    have h0 : m.count '\n' = 0 := List.count_eq_zero.mpr (hm m (List.mem_cons_self m mids))
    simp only [List.map_cons, List.flatten_cons, List.count_append, List.count_cons_self, h0,
      ih (fun t ht => hm t (List.mem_cons_of_mem m ht)), List.length_cons]
    omega

theorem count_nl_joinCont (acc : List Char) (mids : List (List Char))
    (hacc : '\n' ∉ acc) (hm : ∀ m ∈ mids, '\n' ∉ m) :
    (joinCont acc mids).count '\n' = mids.length := by
  unfold joinCont
  rw [List.count_append, List.count_eq_zero.mpr hacc, count_nl_flatten_cons mids hm]
  omega

theorem contShape_markedSegs (l : List (List Char)) (h : contShape l = true) :
    markedSegs l = true := by
  induction l with
  | nil => simp [contShape] at h
  | cons m rest ih =>
    cases rest with
    | nil => simp [markedSegs]
    | cons m' rest' =>
      simp only [contShape, Bool.and_eq_true] at h
      simp only [markedSegs, Bool.and_eq_true]
      exact ⟨h.1, ih h.2⟩

/-! ### Continuation processing -/

theorem linereaderAux_cont (fn : String) :
    ∀ (mids ls : List Line) (lno : Nat) (d e acc : List Char) (rest : List Line),
      contShape mids = true →
      List.Forall₂ (fun l m => rstripNl l = m) ls mids →
      linereaderAux fn lno (some (d, e, acc)) (ls ++ rest) =
        (linereaderAux fn (lno + ls.length) none rest).consRec (d, e, joinCont acc mids) := by
  intro mids
  induction mids with
  | nil =>
    intro ls lno d e acc rest hshape hf
    simp [contShape] at hshape
  | cons m mids' ih =>
    intro ls lno d e acc rest hshape hf
    cases hf with
    | cons hlm hf' =>
      rename_i l ls'
      cases mids' with
      | nil =>
        cases hf'
        have hm : endsBS m = false := by
          simp only [contShape, Bool.not_eq_true'] at hshape
          exact hshape
        simp only [List.cons_append, List.nil_append, linereaderAux, hlm]
        rw [if_neg (by simp [hm])]
        simp only [List.length_cons, List.length_nil]
        have hjoin : joinCont acc [m] = acc ++ '\n' :: m := by
          simp [joinCont]
        rw [hjoin]
        simp
      | cons m2 mids'' =>
        have hshape' : endsBS m = true ∧ contShape (m2 :: mids'') = true := by
          simpa [contShape, Bool.and_eq_true] using hshape
        simp only [List.cons_append, linereaderAux, hlm]
        rw [if_pos hshape'.1]
        simp only [List.append_eq]
        rw [ih ls' (lno + 1) d e (acc ++ '\n' :: m) rest hshape'.2 hf']
        rw [← joinCont_cons]
        have hlen : lno + 1 + ls'.length = lno + (l :: ls').length := by
          simp [List.length_cons]; omega
        rw [hlen]

/-- C4 amended: a record spanning `k` physical lines joined by continuation
markers parses into exactly one Record whose payload contains exactly `k−1`
embedded newline characters, but the continuation-marker backslashes are NOT
stripped: the payload's segments are the `k` line contents verbatim, each
non-final segment still carrying its trailing marker byte. -/
theorem claim_continuation_amended (fn : String) (hdr : Line) (mids : List Line)
    (d e c0 : List Char)
    (hhdr : zh_line_match (rstripNl hdr) = some (d, e, c0))
    (hbs : endsBS c0 = true)
    (hshape : contShape mids = true)
    (hnl : ∀ m ∈ mids, '\n' ∉ m)
    (ls : List Line)
    (hls : List.Forall₂ (fun l m => rstripNl l = m) ls mids) :
    linereader fn (hdr :: ls) = .ok [(d, e, joinCont c0 mids)] ∧
    (joinCont c0 mids).count '\n' = (hdr :: ls).length - 1 ∧
    splitNl (joinCont c0 mids) = c0 :: mids ∧
    markedSegs (c0 :: mids) = true := by
  have hc0 : '\n' ∉ c0 := by
    obtain ⟨-, -, -, -, -, hfree⟩ := (zh_line_match_eq_some _ d e c0).mp hhdr
    simpa using hfree
  have hstrip : rstripNl c0 = c0 := rstripNl_of_no_nl c0 hc0
  have hlen : ls.length = mids.length := hls.length_eq
  have hmne : mids ≠ [] := by
    intro h0; rw [h0] at hshape; simp [contShape] at hshape
  refine ⟨?_, ?_, ?_, ?_⟩
  · unfold linereader
    simp only [linereaderAux, hhdr, hstrip]
    rw [if_pos hbs]
    have := linereaderAux_cont fn mids ls 1 d e c0 [] hshape hls
    rw [List.append_nil] at this
    rw [this]
    rfl
  · rw [count_nl_joinCont c0 mids hc0 hnl]
    simp [List.length_cons, hlen]
  · rw [← joinNl_eq_joinCont]
    refine splitNl_joinNl (c0 :: mids) (by simp) ?_
    intro s hs
    rcases List.mem_cons.mp hs with hs | hs
    · rw [hs]; exact hc0
    · exact hnl s hs
  · cases mids with
    | nil => exact absurd rfl hmne
    | cons m2 mids'' =>
      simp only [markedSegs, Bool.and_eq_true]
      exact ⟨hbs, contShape_markedSegs _ hshape⟩

theorem claim_continuation_amended_witness :
    linereader "h" [(": 1:2;a\\").data, ("x\\").data, ("y").data] =
      .ok [(("1").data, ("2").data, joinCont (("a\\").data) [("x\\").data, ("y").data])] ∧
    (joinCont (("a\\").data) [("x\\").data, ("y").data]).count '\n' =
      ([(": 1:2;a\\").data, ("x\\").data, ("y").data] : List Line).length - 1 ∧
    splitNl (joinCont (("a\\").data) [("x\\").data, ("y").data]) =
      ("a\\").data :: [("x\\").data, ("y").data] ∧
    markedSegs (("a\\").data :: [("x\\").data, ("y").data]) = true :=
  claim_continuation_amended "h" ((": 1:2;a\\").data) [("x\\").data, ("y").data]
    (("1").data) (("2").data) (("a\\").data) (by decide) (by decide) (by decide)
    (by decide) [("x\\").data, ("y").data]
    (.cons (by decide) (.cons (by decide) .nil))

/-! ### Writer-text structure -/

theorem joinNl_cons_cons (a : Char) (s : List Char) (ss : List (List Char)) :
    joinNl ((a :: s) :: ss) = a :: joinNl (s :: ss) := by
  cases ss with
  | nil => rfl
  | cons m rest => simp [joinNl]

theorem joinNl_splitNl : ∀ (c : List Char), joinNl (splitNl c) = c := by
  intro c
  induction c with
  | nil => rfl
  | cons a rest ih =>
    obtain ⟨t, ts, hsp⟩ := splitNl_dest rest
    by_cases ha : a = '\n'
    · subst ha
      rw [splitNl_cons_nl, hsp]
      simp only [joinNl, List.nil_append]
      rw [← hsp, ih]
    · rw [splitNl_cons_ne a rest ha, hsp]
      simp only [List.headI, List.tail_cons]
      rw [joinNl_cons_cons, ← hsp, ih]

theorem splitLinesAux_cons_nl (acc rest : List Char) :
    splitLinesAux acc ('\n' :: rest) = (acc.reverse ++ ['\n']) :: splitLinesAux [] rest := by
  rw [splitLinesAux.eq_def]
  simp

theorem splitLinesAux_cons_other (a : Char) (ha : a ≠ '\n') (ha2 : a ≠ '\r')
    (acc rest : List Char) :
    splitLinesAux acc (a :: rest) = splitLinesAux (a :: acc) rest := by
  rw [splitLinesAux.eq_def]
  simp [ha, ha2]

theorem splitLinesAux_chunk (chunk rest : List Char) (h : '\n' ∉ chunk)
    (hr : '\r' ∉ chunk) :
    ∀ acc, splitLinesAux acc (chunk ++ '\n' :: rest) =
      ((acc.reverse ++ chunk) ++ ['\n']) :: splitLinesAux [] rest := by
  induction chunk with
  | nil =>
    intro acc
    rw [List.nil_append, splitLinesAux_cons_nl]
    simp
  | cons a chunk' ih =>
    intro acc
    have ha : a ≠ '\n' := fun hx => h (hx ▸ List.mem_cons_self a chunk')
    have ha2 : a ≠ '\r' := fun hx => hr (hx ▸ List.mem_cons_self a chunk')
    rw [List.cons_append, splitLinesAux_cons_other a ha ha2]
    rw [ih (fun hx => h (List.mem_cons_of_mem a hx))
      (fun hx => hr (List.mem_cons_of_mem a hx)) (a :: acc)]
    simp [List.append_assoc]

theorem splitLinesKeep_chunk (chunk rest : List Char) (h : '\n' ∉ chunk)
    (hr : '\r' ∉ chunk) :
    splitLinesKeep (chunk ++ '\n' :: rest) = (chunk ++ ['\n']) :: splitLinesKeep rest := by
  unfold splitLinesKeep
  rw [splitLinesAux_chunk chunk rest h hr []]
  simp

theorem splitLines_record : ∀ (segs : List (List Char)) (pre T : List Char),
    segs ≠ [] → (∀ s ∈ segs, '\n' ∉ s) → (∀ s ∈ segs, '\r' ∉ s) →
    '\n' ∉ pre → '\r' ∉ pre →
    splitLinesKeep ((pre ++ joinNl segs) ++ '\n' :: T) =
      ((pre ++ segs.headI) ++ ['\n']) :: ((segs.tail.map (fun s => s ++ ['\n'])) ++ splitLinesKeep T) := by
  intro segs
  induction segs with
  | nil => intro pre T h; exact absurd rfl h
  | cons s rest ih =>
    intro pre T _ hfree hfreeR hpre hpreR
    cases rest with
    | nil =>
      simp only [joinNl, List.headI, List.tail_cons, List.map_nil, List.nil_append]
      refine splitLinesKeep_chunk (pre ++ s) T ?_ ?_
      · intro hx
        rcases List.mem_append.mp hx with hx | hx
        · exact hpre hx
        · exact hfree s (List.mem_cons_self s []) hx
      · intro hx
        rcases List.mem_append.mp hx with hx | hx
        · exact hpreR hx
        · exact hfreeR s (List.mem_cons_self s []) hx
    | cons m rest' =>
      have hs : '\n' ∉ s := hfree s (List.mem_cons_self s (m :: rest'))
      have hsR : '\r' ∉ s := hfreeR s (List.mem_cons_self s (m :: rest'))
      have hps : '\n' ∉ pre ++ s := by
        intro hx
        rcases List.mem_append.mp hx with hx | hx
        · exact hpre hx
        · exact hs hx
      have hpsR : '\r' ∉ pre ++ s := by
        intro hx
        rcases List.mem_append.mp hx with hx | hx
        · exact hpreR hx
        · exact hsR hx
      have hstep : (pre ++ joinNl (s :: m :: rest')) ++ '\n' :: T =
          (pre ++ s) ++ '\n' :: ((joinNl (m :: rest')) ++ '\n' :: T) := by
        simp only [joinNl, List.append_assoc, List.cons_append]
      rw [hstep, splitLinesKeep_chunk (pre ++ s) _ hps hpsR]
      have := ih [] ((joinNl (m :: rest')) ++ '\n' :: T) (by simp)
        (fun t ht => hfree t (List.mem_cons_of_mem s ht))
        (fun t ht => hfreeR t (List.mem_cons_of_mem s ht)) (by simp) (by simp)
      simp only [List.nil_append] at this
      have hrw : splitLinesKeep (joinNl (m :: rest') ++ '\n' :: T) =
          ((m :: rest').headI ++ ['\n']) ::
            ((m :: rest').tail.map (fun s => s ++ ['\n']) ++ splitLinesKeep T) := by
        have h2 := ih [] T (by simp)
          (fun t ht => hfree t (List.mem_cons_of_mem s ht))
          (fun t ht => hfreeR t (List.mem_cons_of_mem s ht)) (by simp) (by simp)
        simpa using h2
      rw [hrw]
      simp [List.headI, List.tail_cons]

/-! ### Round-trip -/

theorem splitNl_subset : ∀ (c : List Char), ∀ s ∈ splitNl c, ∀ x ∈ s, x ∈ c := by
  intro c
  induction c with
  | nil =>
    intro s hs x hx
    simp only [splitNl, List.mem_singleton] at hs
    subst hs
    simp at hx
  | cons a rest ih =>
    intro s hs x hx
    obtain ⟨t, ts, hsp⟩ := splitNl_dest rest
    by_cases ha : a = '\n'
    · subst ha
      rw [splitNl_cons_nl] at hs
      rcases List.mem_cons.mp hs with hs | hs
      · subst hs; simp at hx
      · exact List.mem_cons_of_mem _ (ih s hs x hx)
    · rw [splitNl_cons_ne a rest ha, hsp] at hs
      simp only [List.headI, List.tail_cons] at hs
      rcases List.mem_cons.mp hs with hs | hs
      · subst hs
        rcases List.mem_cons.mp hx with hx | hx
        · exact hx ▸ List.mem_cons_self a rest
        · exact List.mem_cons_of_mem _ (ih t (hsp ▸ List.mem_cons_self t ts) x hx)
      · exact List.mem_cons_of_mem _ (ih s (hsp ▸ List.mem_cons_of_mem t hs) x hx)

theorem digits_no_nl {l : List Char} (h : l.all Char.isDigit = true) : '\n' ∉ l := by
  intro hx
  have := List.all_eq_true.mp h '\n' hx
  exact absurd this (by decide)

theorem digits_no_cr {l : List Char} (h : l.all Char.isDigit = true) : '\r' ∉ l := by
  intro hx
  have := List.all_eq_true.mp h '\r' hx
  exact absurd this (by decide)

theorem not_isEmpty_ne {α : Type} {l : List α} (h : l.isEmpty = false) : l ≠ [] := by
  intro h0; subst h0; simp at h

theorem no_nl_contains {s : List Char} (h : '\n' ∉ s) : s.contains '\n' = false := by
  simpa using h

theorem forall₂_rstrip : ∀ (mids : List Line), (∀ m ∈ mids, '\n' ∉ m) →
    List.Forall₂ (fun l m => rstripNl l = m) (mids.map (fun m => m ++ ['\n'])) mids := by
  intro mids
  induction mids with
  | nil => intro _; exact .nil
  | cons m rest ih =>
    intro h
    exact .cons (rstripNl_append_nl m (h m (List.mem_cons_self m rest)))
      (ih (fun t ht => h t (List.mem_cons_of_mem m ht)))

theorem markedSegs_to_contShape : ∀ (l : List (List Char)) (x : List Char),
    markedSegs l = true → endsBS (l.getLastD x) = false → l ≠ [] → contShape l = true := by
  intro l
  induction l with
  | nil => intro x _ _ h; exact absurd rfl h
  | cons m rest ih =>
    intro x hm hl _
    cases rest with
    | nil =>
      simp only [List.getLastD_cons, List.getLastD_nil] at hl
      simp [contShape, hl]
    | cons m' rest' =>
      simp only [markedSegs, Bool.and_eq_true] at hm
      simp only [contShape, Bool.and_eq_true]
      refine ⟨hm.1, ih m hm.2 ?_ (by simp)⟩
      simpa [List.getLastD_cons] using hl

theorem roundtrip_aux (fn : String) :
    ∀ (rs : List Record) (lno : Nat), (∀ r ∈ rs, wireSafe r = true) →
      linereaderAux fn lno none (splitLinesKeep (linewriter rs)) = .ok rs := by
  intro rs
  induction rs with
  | nil =>
    intro lno _
    simp [linewriter, splitLinesKeep, splitLinesAux, linereaderAux]
  | cons r rs' ih =>
    intro lno hsafe
    obtain ⟨d, e, c⟩ := r
    have hw := hsafe (d, e, c) (List.mem_cons_self _ _)
    simp only [wireSafe, Bool.and_eq_true, Bool.not_eq_true'] at hw
    obtain ⟨⟨⟨⟨⟨⟨hdE, hdall⟩, heE⟩, heall⟩, hms⟩, hlast⟩, hcr⟩ := hw
    have hcrc : '\r' ∉ c := of_decide_eq_false hcr
    have hdne : d ≠ [] := not_isEmpty_ne hdE
    have hene : e ≠ [] := not_isEmpty_ne heE
    have hdnl : '\n' ∉ d := digits_no_nl hdall
    have henl : '\n' ∉ e := digits_no_nl heall
    have hdcr : '\r' ∉ d := digits_no_cr hdall
    have hecr : '\r' ∉ e := digits_no_cr heall
    have hsegR : ∀ s ∈ splitNl c, '\r' ∉ s :=
      fun s hsm hx => hcrc (splitNl_subset c s hsm '\r' hx)
    obtain ⟨s0, tail, hsp⟩ := splitNl_dest c
    have hs0 : '\n' ∉ s0 := splitNl_nl_free c s0 (hsp ▸ List.mem_cons_self s0 tail)
    have hpre : '\n' ∉ (':' :: ' ' :: (d ++ ':' :: (e ++ [';'])) : List Char) := by
      intro hx
      simp only [List.mem_cons, List.mem_append, List.mem_singleton] at hx
      rcases hx with h1 | h1 | h1 | h1 | h1 | h1
      · exact absurd h1 (by decide)
      · exact absurd h1 (by decide)
      · exact hdnl h1
      · exact absurd h1 (by decide)
      · exact henl h1
      · exact absurd h1 (by decide)
    have hpreR : '\r' ∉ (':' :: ' ' :: (d ++ ':' :: (e ++ [';'])) : List Char) := by
      intro hx
      simp only [List.mem_cons, List.mem_append, List.mem_singleton] at hx
      rcases hx with h1 | h1 | h1 | h1 | h1 | h1
      · exact absurd h1 (by decide)
      · exact absurd h1 (by decide)
      · exact hdcr h1
      · exact absurd h1 (by decide)
      · exact hecr h1
      · exact absurd h1 (by decide)
    have hhdr : '\n' ∉ (':' :: ' ' :: (d ++ ':' :: (e ++ ';' :: s0)) : List Char) := by
      intro hx
      simp only [List.mem_cons, List.mem_append] at hx
      rcases hx with h1 | h1 | h1 | h1 | h1 | h1
      · exact absurd h1 (by decide)
      · exact absurd h1 (by decide)
      · exact hdnl h1
      · exact absurd h1 (by decide)
      · exact henl h1
      · rcases h1 with h1 | h1
        · exact absurd h1 (by decide)
        · exact hs0 h1
    have htext : linewriter ((d, e, c) :: rs') =
        ((':' :: ' ' :: (d ++ ':' :: (e ++ [';']))) ++ joinNl (splitNl c)) ++
          '\n' :: linewriter rs' := by
      simp [linewriter, wireLine, joinNl_splitNl, List.append_assoc]
    have hlines : splitLinesKeep (linewriter ((d, e, c) :: rs')) =
        ((':' :: ' ' :: (d ++ ':' :: (e ++ ';' :: s0))) ++ ['\n']) ::
          ((tail.map (fun s => s ++ ['\n'])) ++ splitLinesKeep (linewriter rs')) := by
      rw [htext, splitLines_record (splitNl c) _ (linewriter rs') (splitNl_ne_nil c)
        (splitNl_nl_free c) hsegR hpre hpreR, hsp]
      simp [List.headI, List.tail_cons, List.append_assoc]
    rw [hlines]
    have hstrip1 : rstripNl ((':' :: ' ' :: (d ++ ':' :: (e ++ ';' :: s0))) ++ ['\n']) =
        ':' :: ' ' :: (d ++ ':' :: (e ++ ';' :: s0)) := rstripNl_append_nl _ hhdr
    have hmatch : zh_line_match (':' :: ' ' :: (d ++ ':' :: (e ++ ';' :: s0))) =
        some (d, e, s0) :=
      (zh_line_match_eq_some _ d e s0).mpr
        ⟨rfl, hdne, hdall, hene, heall, no_nl_contains hs0⟩
    have hcstrip : rstripNl s0 = s0 := rstripNl_of_no_nl s0 hs0
    simp only [linereaderAux, hstrip1, hmatch, hcstrip]
    cases tail with
    | nil =>
      have hc : c = s0 := by
        have hj := joinNl_splitNl c
        rw [hsp] at hj
        simpa [joinNl] using hj.symm
      have hlast0 : endsBS s0 = false := by
        rw [hsp] at hlast
        simpa [List.getLastD_cons, List.getLastD_nil] using hlast
      rw [if_neg (by simp [hlast0])]
      simp only [List.map_nil, List.nil_append]
      rw [ih (lno + 1) (fun t ht => hsafe t (List.mem_cons_of_mem _ ht))]
      rw [hc]
      rfl
    | cons t1 ts =>
      have hms' : endsBS s0 = true ∧ markedSegs (t1 :: ts) = true := by
        rw [hsp] at hms
        simpa [markedSegs, Bool.and_eq_true] using hms
      have hfree' : ∀ m ∈ (t1 :: ts), '\n' ∉ m := by
        intro m hm
        exact splitNl_nl_free c m (hsp ▸ List.mem_cons_of_mem s0 hm)
      have hshape : contShape (t1 :: ts) = true := by
        refine markedSegs_to_contShape (t1 :: ts) s0 hms'.2 ?_ (by simp)
        rw [hsp] at hlast
        simpa [List.getLastD_cons] using hlast
      rw [if_pos hms'.1]
      rw [linereaderAux_cont fn (t1 :: ts) ((t1 :: ts).map (fun m => m ++ ['\n']))
        (lno + 1) d e s0 (splitLinesKeep (linewriter rs')) hshape (forall₂_rstrip _ hfree')]
      have hjoin : joinCont s0 (t1 :: ts) = c := by
        rw [← joinNl_eq_joinCont, ← hsp, joinNl_splitNl]
      rw [hjoin, ih _ (fun t ht => hsafe t (List.mem_cons_of_mem _ ht))]
      rfl

/-- C5 counterexample: the round-trip fails as a universal statement — a
Record whose multi-line payload carries no continuation marker serializes
with a bare newline, and re-parsing that output aborts with a header
non-match on line 2 instead of returning the record. -/
theorem claim_roundtrip_counterexample :
    parseText "h" (linewriter [(("1").data, ("0").data, ("a\nb").data)]) =
      .err (.nonMatch "h" 2) ∧
    ParseResult.err (.nonMatch "h" 2) ≠
      ParseResult.ok [(("1").data, ("0").data, ("a\nb").data)] := by
  decide

/-- C5 amended: the round-trip holds exactly for wire-safe record sequences:
digit-string timestamp and duration, payload segments carrying the parser's
retained continuation markers (every non-final segment marker-terminated, the
final one not).  For such records, parsing the writer's output returns the
same sequence. -/
theorem claim_roundtrip_amended (fn : String) (rs : List Record)
    (h : ∀ r ∈ rs, wireSafe r = true) :
    parseText fn (linewriter rs) = .ok rs := by
  unfold parseText linereader
  exact roundtrip_aux fn rs 0 h

theorem claim_roundtrip_amended_witness :
    (∀ r ∈ ([(("1").data, ("0").data, ("a\\\nb").data),
             (("2").data, ("34").data, ("x").data)] : List Record), wireSafe r = true) ∧
    parseText "h" (linewriter [(("1").data, ("0").data, ("a\\\nb").data),
        (("2").data, ("34").data, ("x").data)]) =
      .ok [(("1").data, ("0").data, ("a\\\nb").data),
           (("2").data, ("34").data, ("x").data)] :=
  ⟨by decide, claim_roundtrip_amended "h" _ (by decide)⟩

/-! ### Writer vs the spec's marker-re-inserting writer (C6) -/

theorem dropBS_append_of_endsBS {s : List Char} (h : endsBS s = true) :
    dropBS s ++ ['\\'] = s := by
  have h0 := h
  unfold endsBS at h0
  rw [beq_iff_eq] at h0
  have hne : s ≠ [] := by intro hx; subst hx; simp at h0
  have hlast : s.getLast hne = '\\' := by
    have hgl := List.getLast?_eq_getLast s hne
    rw [hgl, Option.some_inj] at h0
    exact h0
  unfold dropBS
  rw [if_pos h, ← hlast]
  exact List.dropLast_append_getLast hne

theorem stripSegs_ne_nil (segs : List (List Char)) (h : segs ≠ []) :
    stripSegs segs ≠ [] := by
  cases segs with
  | nil => exact absurd rfl h
  | cons s rest => cases rest <;> simp [stripSegs]

theorem stripSegs_nl_free : ∀ (segs : List (List Char)),
    (∀ s ∈ segs, '\n' ∉ s) → ∀ s ∈ stripSegs segs, '\n' ∉ s := by
  intro segs
  induction segs with
  | nil => intro _ s hs; cases hs
  | cons t rest ih =>
    intro hfree s hs
    have hdrop : ∀ u : List Char, '\n' ∉ u → '\n' ∉ dropBS u := by
      intro u hu hx
      unfold dropBS at hx
      by_cases hb : endsBS u = true
      · rw [if_pos hb] at hx
        exact hu ((List.dropLast_sublist u).subset hx)
      · rw [if_neg hb] at hx
        exact hu hx
    cases rest with
    | nil =>
      simp only [stripSegs, List.mem_singleton] at hs
      rw [hs]
      exact hfree t (List.mem_cons_self t [])
    | cons m rest' =>
      simp only [stripSegs, List.mem_cons] at hs
      rcases hs with hs | hs
      · rw [hs]
        exact hdrop t (hfree t (List.mem_cons_self t (m :: rest')))
      · exact ih (fun u hu => hfree u (List.mem_cons_of_mem t hu)) s
          (by simpa [stripSegs] using hs)

theorem joinBS_stripSegs : ∀ (segs : List (List Char)),
    markedSegs segs = true → joinBS (stripSegs segs) = joinNl segs := by
  intro segs
  induction segs with
  | nil => intro _; rfl
  | cons s rest ih =>
    intro hm
    cases rest with
    | nil => rfl
    | cons m rest' =>
      simp only [markedSegs, Bool.and_eq_true] at hm
      obtain ⟨t, ts, hst⟩ : ∃ t ts, stripSegs (m :: rest') = t :: ts := by
        cases hx : stripSegs (m :: rest') with
        | nil => exact absurd hx (stripSegs_ne_nil _ (by simp))
        | cons t ts => exact ⟨t, ts, rfl⟩
      simp only [stripSegs, hst, joinBS]
      rw [← hst, ih hm.2]
      rw [show joinNl (s :: m :: rest') = s ++ '\n' :: joinNl (m :: rest') from by
        simp [joinNl]]
      conv_rhs => rw [← dropBS_append_of_endsBS hm.1]
      simp [List.append_assoc]

theorem wireLine_eq_spec (r : Record) (hm : markedSegs (splitNl r.2.2) = true) :
    wireLine r = wireLineSpec (stripMarkers r) := by
  obtain ⟨d, e, c⟩ := r
  unfold wireLine wireLineSpec stripMarkers
  simp only
  rw [splitNl_joinNl (stripSegs (splitNl c)) (stripSegs_ne_nil _ (splitNl_ne_nil c))
    (stripSegs_nl_free _ (splitNl_nl_free c))]
  rw [joinBS_stripSegs _ hm, joinNl_splitNl]

/-- C6 counterexample: the writer does NOT re-insert continuation markers.
For a Record whose payload embeds a newline without a marker, `linewriter`
emits the newline bare, while the spec's re-inserting writer (modelled as
`lineWriterSpec`) would emit a backslash before it; the two outputs differ. -/
theorem claim_writer_marker_counterexample :
    linewriter [(("1").data, ("0").data, ("a\nb").data)] = (": 1:0;a\nb\n").data ∧
    lineWriterSpec [(("1").data, ("0").data, ("a\nb").data)] = (": 1:0;a\\\nb\n").data ∧
    linewriter [(("1").data, ("0").data, ("a\nb").data)] ≠
      lineWriterSpec [(("1").data, ("0").data, ("a\nb").data)] := by
  decide

/-- C6 amended: `linewriter` copies each payload verbatim and inserts
nothing; markers appear at line breaks only because the parser retained them
in the payload.  Precisely: for records whose payload segments all carry
their markers (every non-final segment backslash-terminated), the writer's
output coincides with the spec's marker-re-inserting writer applied to the
marker-stripped records. -/
theorem claim_writer_verbatim_amended (rs : List Record)
    (h : ∀ r ∈ rs, markedSegs (splitNl r.2.2) = true) :
    linewriter rs = lineWriterSpec (rs.map stripMarkers) := by
  unfold linewriter lineWriterSpec
  rw [List.map_map]
  refine congrArg List.flatten ?_
  refine List.map_congr_left ?_
  intro r hr
  exact wireLine_eq_spec r (h r hr)

theorem claim_writer_verbatim_amended_witness :
    (∀ r ∈ ([(("1").data, ("0").data, ("a\\\nb").data)] : List Record),
        markedSegs (splitNl r.2.2) = true) ∧
    linewriter [(("1").data, ("0").data, ("a\\\nb").data)] =
      lineWriterSpec ([(("1").data, ("0").data, ("a\\\nb").data)].map stripMarkers) :=
  ⟨by decide, claim_writer_verbatim_amended _ (by decide)⟩

/-! ### Fingerprint injectivity and dedup decomposition -/

theorem append_none_inj {α : Type} : ∀ (xs ys u v : List (Option α)),
    none ∉ xs → none ∉ ys → xs ++ none :: u = ys ++ none :: v → xs = ys ∧ u = v := by
  intro xs
  induction xs with
  | nil =>
    intro ys u v _ hy h
    cases ys with
    | nil => simpa using h
    | cons b ys' =>
      simp only [List.nil_append, List.cons_append, List.cons.injEq] at h
      exact absurd h.1.symm
        (by intro hb; exact hy (hb ▸ List.mem_cons_self b ys'))
  | cons a xs' ih =>
    intro ys u v hx hy h
    cases ys with
    | nil =>
      simp only [List.cons_append, List.nil_append, List.cons.injEq] at h
      exact absurd h.1 (by intro ha; exact hx (ha ▸ List.mem_cons_self a xs'))
    | cons b ys' =>
      simp only [List.cons_append, List.cons.injEq] at h
      obtain ⟨hab, hrest⟩ := h
      obtain ⟨h1, h2⟩ := ih ys' u v (fun hm => hx (List.mem_cons_of_mem a hm))
        (fun hm => hy (List.mem_cons_of_mem b hm)) hrest
      exact ⟨by rw [hab, h1], h2⟩

theorem myhash_inj : ∀ (a b : Record), myhash a = myhash b → a = b := by
  intro a b h
  obtain ⟨a1, a2, a3⟩ := a
  obtain ⟨b1, b2, b3⟩ := b
  unfold myhash at h
  dsimp only at h
  simp only [List.append_assoc, List.cons_append] at h
  have hno : ∀ (l : List Char), (none : Option Char) ∉ l.map some := by
    intro l hm
    obtain ⟨c, -, hc⟩ := List.mem_map.mp hm
    cases hc
  obtain ⟨h1, hrest⟩ := append_none_inj _ _ _ _ (hno a1) (hno b1) h
  obtain ⟨h2, h3⟩ := append_none_inj _ _ _ _ (hno a2) (hno b2) hrest
  have hinj : Function.Injective (some : Char → Option Char) := Option.some_injective Char
  have e1 : a1 = b1 := List.map_injective_iff.mpr hinj h1
  have e2 : a2 = b2 := List.map_injective_iff.mpr hinj h2
  have e3 : a3 = b3 := List.map_injective_iff.mpr hinj h3
  simp [e1, e2, e3]

theorem dedupenext_cases : ∀ (rdr : List Record) (dups : List Fp),
    (∃ skipped x rest, rdr = skipped ++ x :: rest ∧ (∀ s ∈ skipped, myhash s ∈ dups) ∧
      myhash x ∉ dups ∧ dedupenext rdr dups = (some x, myhash x :: dups, rest)) ∨
    ((∀ s ∈ rdr, myhash s ∈ dups) ∧ dedupenext rdr dups = (none, dups, [])) := by
  intro rdr
  induction rdr with
  | nil =>
    intro dups
    right
    exact ⟨fun s hs => absurd hs (List.not_mem_nil s), rfl⟩
  | cons y rest ih =>
    intro dups
    by_cases hy : myhash y ∈ dups
    · have hstep : dedupenext (y :: rest) dups = dedupenext rest dups := by
        simp [dedupenext, hy]
      rcases ih dups with ⟨sk, x, rst, hdec, hsk, hx, heq⟩ | ⟨hall, heq⟩
      · left
        refine ⟨y :: sk, x, rst, by rw [List.cons_append, hdec], ?_, hx, by rw [hstep, heq]⟩
        intro s hs
        rcases List.mem_cons.mp hs with hs | hs
        · rw [hs]; exact hy
        · exact hsk s hs
      · right
        refine ⟨?_, by rw [hstep, heq]⟩
        intro s hs
        rcases List.mem_cons.mp hs with hs | hs
        · rw [hs]; exact hy
        · exact hall s hs
    · left
      exact ⟨[], y, rest, rfl, fun s hs => absurd hs (List.not_mem_nil s), hy,
        by simp [dedupenext, hy]⟩

theorem dedupenext_weight : ∀ (rdr : List Record) (dups : List Fp),
    slotWeight ((dedupenext rdr dups).1, (dedupenext rdr dups).2.2) ≤ rdr.length := by
  intro rdr
  induction rdr with
  | nil => intro dups; simp [dedupenext, slotWeight]
  | cons y rest ih =>
    intro dups
    by_cases hy : myhash y ∈ dups
    · simp only [dedupenext, if_pos hy]
      exact le_trans (ih dups) (by simp)
    · simp only [dedupenext, if_neg hy]
      simp [slotWeight]

/-! ### Minimum-scan specification -/

theorem selLoop_all_none : ∀ (nexts : List (Option Record)) (i : Nat)
    (best : Option (Nat × Nat)),
    (∀ o ∈ nexts, o = none) → selLoop i best nexts = best := by
  intro nexts
  induction nexts with
  | nil => intro i best _; rfl
  | cons o rest ih =>
    intro i best h
    have ho : o = none := h o (List.mem_cons_self o rest)
    subst ho
    simp only [selLoop]
    exact ih (i + 1) best (fun x hx => h x (List.mem_cons_of_mem none hx))

theorem selLoop_spec : ∀ (nexts : List (Option Record)) (i : Nat)
    (best : Option (Nat × Nat)),
    (selLoop i best nexts = none → best = none ∧ ∀ o ∈ nexts, o = none) ∧
    (∀ lo idx, selLoop i best nexts = some (lo, idx) →
      (∀ (j : Nat) (r : Record), nexts[j]? = some (some r) → lo ≤ key r) ∧
      (best = some (lo, idx) ∨
        ∃ (j : Nat) (r : Record), nexts[j]? = some (some r) ∧ idx = i + j ∧ lo = key r ∧
          (∀ p q, best = some (p, q) → lo < p) ∧
          (∀ (j' : Nat) (r' : Record), j' < j → nexts[j']? = some (some r') → lo < key r'))) := by
  intro nexts
  induction nexts with
  | nil =>
    intro i best
    constructor
    · intro h
      exact ⟨h, fun o ho => absurd ho (List.not_mem_nil o)⟩
    · intro lo idx h
      constructor
      · intro j r hj
        simp at hj
      · exact Or.inl h
  | cons o rest ih =>
    intro i best
    cases o with
    | none =>
      have ihs := ih (i + 1) best
      constructor
      · intro h
        simp only [selLoop] at h
        obtain ⟨hb, hall⟩ := ihs.1 h
        refine ⟨hb, ?_⟩
        intro x hx
        rcases List.mem_cons.mp hx with hx | hx
        · exact hx
        · exact hall x hx
      · intro lo idx h
        simp only [selLoop] at h
        obtain ⟨hmin, hwin⟩ := ihs.2 lo idx h
        constructor
        · intro j r hj
          cases j with
          | zero => simp at hj
          | succ j' => exact hmin j' r (by simpa using hj)
        · rcases hwin with hb | ⟨j, r, hj, hidx, hlo, hbest, hstrict⟩
          · exact Or.inl hb
          · refine Or.inr ⟨j + 1, r, by simpa using hj, by omega, hlo, hbest, ?_⟩
            intro j' r' hj' hget
            cases j' with
            | zero => simp at hget
            | succ j'' => exact hstrict j'' r' (by omega) (by simpa using hget)
    | some r0 =>
      cases best with
      | none =>
        have ihs := ih (i + 1) (some (key r0, i))
        constructor
        · intro h
          simp only [selLoop] at h
          obtain ⟨hb, -⟩ := ihs.1 h
          exact absurd hb (by simp)
        · intro lo idx h
          simp only [selLoop] at h
          obtain ⟨hmin, hwin⟩ := ihs.2 lo idx h
          rcases hwin with hb | ⟨j, r, hj, hidx, hlo, hbest, hstrict⟩
          · rw [Option.some_inj, Prod.mk.injEq] at hb
            obtain ⟨hlo0, hidx0⟩ := hb
            constructor
            · intro j r hj
              cases j with
              | zero =>
                simp only [List.getElem?_cons_zero, Option.some_inj] at hj
                rw [← hlo0, ← hj]
              | succ j' => exact hmin j' r (by simpa using hj)
            · refine Or.inr ⟨0, r0, by simp, by omega, hlo0.symm, ?_, ?_⟩
              · intro p q hpq; cases hpq
              · intro j' r' hj' _; omega
          · have hltr0 : lo < key r0 := hbest (key r0) i rfl
            constructor
            · intro j r hj
              cases j with
              | zero =>
                simp only [List.getElem?_cons_zero, Option.some_inj] at hj
                rw [← hj]; omega
              | succ j' => exact hmin j' r (by simpa using hj)
            · refine Or.inr ⟨j + 1, r, by simpa using hj, by omega, hlo, ?_, ?_⟩
              · intro p q hpq; cases hpq
              · intro j' r' hj' hget
                cases j' with
                | zero =>
                  simp only [List.getElem?_cons_zero, Option.some_inj] at hget
                  rw [← hget]; omega
                | succ j'' => exact hstrict j'' r' (by omega) (by simpa using hget)
      | some bp =>
        obtain ⟨lo0, idx0⟩ := bp
        by_cases hlt : key r0 < lo0
        · have ihs := ih (i + 1) (some (key r0, i))
          constructor
          · intro h
            simp only [selLoop, if_pos hlt] at h
            obtain ⟨hb, -⟩ := ihs.1 h
            exact absurd hb (by simp)
          · intro lo idx h
            simp only [selLoop, if_pos hlt] at h
            obtain ⟨hmin, hwin⟩ := ihs.2 lo idx h
            rcases hwin with hb | ⟨j, r, hj, hidx, hlo, hbest, hstrict⟩
            · rw [Option.some_inj, Prod.mk.injEq] at hb
              obtain ⟨hlo0, hidx0⟩ := hb
              constructor
              · intro j r hj
                cases j with
                | zero =>
                  simp only [List.getElem?_cons_zero, Option.some_inj] at hj
                  rw [← hlo0, ← hj]
                | succ j' => exact hmin j' r (by simpa using hj)
              · refine Or.inr ⟨0, r0, by simp, by omega, hlo0.symm, ?_, ?_⟩
                · intro p q hpq
                  rw [Option.some_inj, Prod.mk.injEq] at hpq
                  omega
                · intro j' r' hj' _; omega
            · have hltr0 : lo < key r0 := hbest (key r0) i rfl
              constructor
              · intro j r hj
                cases j with
                | zero =>
                  simp only [List.getElem?_cons_zero, Option.some_inj] at hj
                  rw [← hj]; omega
                | succ j' => exact hmin j' r (by simpa using hj)
              · refine Or.inr ⟨j + 1, r, by simpa using hj, by omega, hlo, ?_, ?_⟩
                · intro p q hpq
                  rw [Option.some_inj, Prod.mk.injEq] at hpq
                  omega
                · intro j' r' hj' hget
                  cases j' with
                  | zero =>
                    simp only [List.getElem?_cons_zero, Option.some_inj] at hget
                    rw [← hget]; omega
                  | succ j'' => exact hstrict j'' r' (by omega) (by simpa using hget)
        · have hge : lo0 ≤ key r0 := Nat.le_of_not_lt hlt
          have ihs := ih (i + 1) (some (lo0, idx0))
          constructor
          · intro h
            simp only [selLoop, if_neg hlt] at h
            obtain ⟨hb, -⟩ := ihs.1 h
            exact absurd hb (by simp)
          · intro lo idx h
            simp only [selLoop, if_neg hlt] at h
            obtain ⟨hmin, hwin⟩ := ihs.2 lo idx h
            rcases hwin with hb | ⟨j, r, hj, hidx, hlo, hbest, hstrict⟩
            · rw [Option.some_inj, Prod.mk.injEq] at hb
              obtain ⟨hlo0, hidx0⟩ := hb
              constructor
              · intro j r hj
                cases j with
                | zero =>
                  simp only [List.getElem?_cons_zero, Option.some_inj] at hj
                  rw [← hj]; omega
                | succ j' => exact hmin j' r (by simpa using hj)
              · exact Or.inl (by rw [hlo0, hidx0])
            · have hltr0 : lo < lo0 := hbest lo0 idx0 rfl
              constructor
              · intro j r hj
                cases j with
                | zero =>
                  simp only [List.getElem?_cons_zero, Option.some_inj] at hj
                  rw [← hj]; omega
                | succ j' => exact hmin j' r (by simpa using hj)
              · refine Or.inr ⟨j + 1, r, by simpa using hj, by omega, hlo, ?_, ?_⟩
                · intro p q hpq
                  rw [Option.some_inj, Prod.mk.injEq] at hpq
                  omega
                · intro j' r' hj' hget
                  cases j' with
                  | zero =>
                    simp only [List.getElem?_cons_zero, Option.some_inj] at hget
                    rw [← hget]; omega
                  | succ j'' => exact hstrict j'' r' (by omega) (by simpa using hget)

/-! ### Indexed-list helpers -/

theorem getElem?_some_lt {α : Type} : ∀ (l : List α) (i : Nat) (a : α),
    l[i]? = some a → i < l.length := by
  intro l
  induction l with
  | nil => intro i a h; simp at h
  | cons x rest ih =>
    intro i a h
    cases i with
    | zero => simp
    | succ n =>
      simp only [List.getElem?_cons_succ] at h
      have := ih n a h
      simp only [List.length_cons]
      omega

theorem getElem?_some_mem {α : Type} : ∀ (l : List α) (i : Nat) (a : α),
    l[i]? = some a → a ∈ l := by
  intro l
  induction l with
  | nil => intro i a h; simp at h
  | cons x rest ih =>
    intro i a h
    cases i with
    | zero =>
      simp only [List.getElem?_cons_zero, Option.some_inj] at h
      subst h
      exact List.mem_cons_self x rest
    | succ n =>
      simp only [List.getElem?_cons_succ] at h
      exact List.mem_cons_of_mem x (ih n a h)

theorem set_getElem?_same {α : Type} : ∀ (l : List α) (i : Nat) (v : α),
    i < l.length → (l.set i v)[i]? = some v := by
  intro l
  induction l with
  | nil => intro i v h; simp at h
  | cons x rest ih =>
    intro i v h
    cases i with
    | zero => simp only [List.set_cons_zero, List.getElem?_cons_zero]
    | succ n =>
      simp only [List.set_cons_succ, List.getElem?_cons_succ]
      exact ih n v (by simp only [List.length_cons] at h; omega)

theorem set_getElem?_other {α : Type} : ∀ (l : List α) (i j : Nat) (v : α),
    i ≠ j → (l.set i v)[j]? = l[j]? := by
  intro l
  induction l with
  | nil => intro i j v _; simp
  | cons x rest ih =>
    intro i j v hne
    cases i with
    | zero =>
      cases j with
      | zero => exact absurd rfl hne
      | succ m => simp only [List.set_cons_zero, List.getElem?_cons_succ]
    | succ n =>
      cases j with
      | zero => simp only [List.set_cons_succ, List.getElem?_cons_zero]
      | succ m =>
        simp only [List.set_cons_succ, List.getElem?_cons_succ]
        exact ih n m v (fun h0 => hne (by omega))

theorem mem_of_mem_set {α : Type} : ∀ (l : List α) (i : Nat) (v a : α),
    a ∈ l.set i v → a ∈ l ∨ a = v := by
  intro l
  induction l with
  | nil => intro i v a h; simp at h
  | cons x rest ih =>
    intro i v a h
    cases i with
    | zero =>
      rcases List.mem_cons.mp h with h | h
      · exact Or.inr h
      · exact Or.inl (List.mem_cons_of_mem x h)
    | succ n =>
      rcases List.mem_cons.mp h with h | h
      · exact Or.inl (h ▸ List.mem_cons_self x rest)
      · rcases ih n v a h with h | h
        · exact Or.inl (List.mem_cons_of_mem x h)
        · exact Or.inr h

/-! ### Selection corollaries and weights -/

theorem selIdx_none_iff (nexts : List (Option Record)) :
    selIdx nexts = none ↔ ∀ o ∈ nexts, o = none := by
  constructor
  · intro h
    unfold selIdx at h
    rw [Option.map_eq_none'] at h
    exact ((selLoop_spec nexts 0 none).1 h).2
  · intro h
    unfold selIdx
    rw [selLoop_all_none nexts 0 none h]
    rfl

theorem selIdx_some_spec {nexts : List (Option Record)} {idx : Nat}
    (h : selIdx nexts = some idx) :
    ∃ r, nexts[idx]? = some (some r) ∧
      (∀ (j : Nat) (r' : Record), nexts[j]? = some (some r') → key r ≤ key r') ∧
      (∀ (j : Nat) (r' : Record), j < idx → nexts[j]? = some (some r') → key r < key r') := by
  unfold selIdx at h
  obtain ⟨p, hsl, hmap⟩ := Option.map_eq_some'.mp h
  obtain ⟨lo, idx'⟩ := p
  simp only at hmap
  subst hmap
  obtain ⟨hmin, hwin⟩ := (selLoop_spec nexts 0 none).2 lo idx' hsl
  rcases hwin with hb | ⟨j, r, hj, hidx, hlo, -, hstrict⟩
  · exact absurd hb (by simp)
  · have hij : idx' = j := by omega
    rw [← hij] at hj hstrict
    rw [hlo] at hmin hstrict
    exact ⟨r, hj, hmin, hstrict⟩

theorem selIdx_slots {slots : List (Option Record × List Record)} {idx : Nat}
    (h : selIdx (slots.map Prod.fst) = some idx) :
    ∃ r rdr, slots[idx]? = some (some r, rdr) ∧
      (∀ (j : Nat) (r' : Record), HeadAt slots j r' → key r ≤ key r') ∧
      (∀ (j : Nat) (r' : Record), j < idx → HeadAt slots j r' → key r < key r') := by
  obtain ⟨r, hidx, hmin, hstrict⟩ := selIdx_some_spec h
  rw [List.getElem?_map] at hidx
  obtain ⟨s, hs, hfst⟩ := Option.map_eq_some'.mp hidx
  obtain ⟨o, rdr⟩ := s
  simp only at hfst
  subst hfst
  refine ⟨r, rdr, hs, ?_, ?_⟩
  · rintro j r' ⟨rdr', hj⟩
    refine hmin j r' ?_
    rw [List.getElem?_map, hj]
    rfl
  · rintro j r' hlt ⟨rdr', hj⟩
    refine hstrict j r' hlt ?_
    rw [List.getElem?_map, hj]
    rfl

theorem slotsWeight_cons (s : Option Record × List Record)
    (rest : List (Option Record × List Record)) :
    slotsWeight (s :: rest) = slotWeight s + slotsWeight rest := by
  simp [slotsWeight]

theorem slotsWeight_set_lt : ∀ (slots : List (Option Record × List Record)) (idx : Nat)
    (s v : Option Record × List Record), slots[idx]? = some s →
    slotWeight v < slotWeight s → slotsWeight (slots.set idx v) < slotsWeight slots := by
  intro slots
  induction slots with
  | nil => intro idx s v h _; simp at h
  | cons a rest ih =>
    intro idx s v h hlt
    cases idx with
    | zero =>
      simp only [List.getElem?_cons_zero, Option.some_inj] at h
      subst h
      simp only [List.set_cons_zero, slotsWeight_cons]
      omega
    | succ n =>
      simp only [List.getElem?_cons_succ] at h
      simp only [List.set_cons_succ, slotsWeight_cons]
      have := ih n s v h hlt
      omega

theorem zipAuxF_stop (fuel : Nat) (slots : List (Option Record × List Record))
    (dups : List Fp) (h : selIdx (slots.map Prod.fst) = none) :
    zipAuxF fuel slots dups = [] := by
  cases fuel with
  | zero => rfl
  | succ n => simp [zipAuxF, h]

theorem zipAuxF_step (fuel : Nat) (slots : List (Option Record × List Record))
    (dups : List Fp) (idx : Nat) (r : Record) (rdr : List Record)
    (hsel : selIdx (slots.map Prod.fst) = some idx)
    (hslot : slots[idx]? = some (some r, rdr)) :
    zipAuxF (fuel + 1) slots dups =
      r :: zipAuxF fuel
        (slots.set idx ((dedupenext rdr dups).1, (dedupenext rdr dups).2.2))
        (dedupenext rdr dups).2.1 := by
  simp [zipAuxF, hsel, hslot]

/-! ### Merge ordering (C1) -/

theorem dedupe_slotInv (o : Option Record) {rdr : List Record} {dups : List Fp}
    (hinv : SlotInv (o, rdr)) :
    SlotInv ((dedupenext rdr dups).1, (dedupenext rdr dups).2.2) := by
  rcases dedupenext_cases rdr dups with ⟨sk, x, rst, hdec, -, -, heq⟩ | ⟨-, heq⟩
  · rw [heq]
    dsimp only
    have hsub : List.Sublist (x :: rst) rdr := by
      rw [hdec]
      exact List.sublist_append_right sk (x :: rst)
    have hsortx : (x :: rst).Pairwise (fun a b => key a ≤ key b) :=
      hinv.1.sublist hsub
    constructor
    · exact (List.pairwise_cons.mp hsortx).2
    · intro r hr y hy
      have hxr : x = r := Option.some_inj.mp hr
      subst hxr
      exact (List.pairwise_cons.mp hsortx).1 y hy
  · rw [heq]
    dsimp only
    exact ⟨List.Pairwise.nil, fun r hr => by cases hr⟩

theorem zipAuxF_sorted : ∀ (fuel : Nat) (slots : List (Option Record × List Record))
    (dups : List Fp), slotsWeight slots < fuel → (∀ s ∈ slots, SlotInv s) →
    sortedByKey (zipAuxF fuel slots dups) ∧
    (∀ y ∈ zipAuxF fuel slots dups,
      ∃ (i : Nat) (r : Record), HeadAt slots i r ∧ key r ≤ key y) := by
  intro fuel
  induction fuel with
  | zero =>
    intro slots dups hw _
    exact absurd hw (by omega)
  | succ n ih =>
    intro slots dups hw hinv
    cases hsel : selIdx (slots.map Prod.fst) with
    | none =>
      rw [zipAuxF_stop _ _ _ hsel]
      exact ⟨List.Pairwise.nil, fun y hy => absurd hy (List.not_mem_nil y)⟩
    | some idx =>
      obtain ⟨r0, rdr0, hslot, hmin, -⟩ := selIdx_slots hsel
      rw [zipAuxF_step n slots dups idx r0 rdr0 hsel hslot]
      have hmem_slot : (some r0, rdr0) ∈ slots := getElem?_some_mem slots idx _ hslot
      have hinv0 := hinv _ hmem_slot
      have hlen : idx < slots.length := getElem?_some_lt slots idx _ hslot
      have hnew : SlotInv ((dedupenext rdr0 dups).1, (dedupenext rdr0 dups).2.2) :=
        dedupe_slotInv (some r0) hinv0
      have hinv' : ∀ s ∈ slots.set idx
          ((dedupenext rdr0 dups).1, (dedupenext rdr0 dups).2.2), SlotInv s := by
        intro s hs
        rcases mem_of_mem_set _ _ _ _ hs with hs | hs
        · exact hinv s hs
        · rw [hs]; exact hnew
      have hw' : slotsWeight (slots.set idx
          ((dedupenext rdr0 dups).1, (dedupenext rdr0 dups).2.2)) < n := by
        have h1 : slotsWeight (slots.set idx
            ((dedupenext rdr0 dups).1, (dedupenext rdr0 dups).2.2)) < slotsWeight slots := by
          refine slotsWeight_set_lt slots idx (some r0, rdr0) _ hslot ?_
          have h2 := dedupenext_weight rdr0 dups
          have h3 : slotWeight (some r0, rdr0) = rdr0.length + 1 := rfl
          omega
        omega
      obtain ⟨hsort', hlb⟩ := ih _ (dedupenext rdr0 dups).2.1 hw' hinv'
      have hheads' : ∀ (i : Nat) (r' : Record),
          HeadAt (slots.set idx ((dedupenext rdr0 dups).1, (dedupenext rdr0 dups).2.2)) i r' →
          key r0 ≤ key r' := by
        rintro i r' ⟨rdr', hget⟩
        by_cases hii : i = idx
        · subst hii
          rw [set_getElem?_same _ _ _ hlen, Option.some_inj] at hget
          rcases dedupenext_cases rdr0 dups with ⟨sk, x, rst, hdec, -, -, heq⟩ | ⟨-, heq⟩
          · rw [heq] at hget
            have hx : x = r' := by
              have := congrArg Prod.fst hget
              simpa using this
            subst hx
            refine hinv0.2 r0 rfl x ?_
            rw [hdec]
            exact List.mem_append_right sk (List.mem_cons_self x rst)
          · rw [heq] at hget
            have : (none : Option Record) = some r' := by
              have h4 := congrArg Prod.fst hget
              simp at h4
            cases this
        · rw [set_getElem?_other _ idx i _ (fun h0 => hii h0.symm)] at hget
          exact hmin i r' ⟨rdr', hget⟩
      constructor
      · refine List.Pairwise.cons ?_ hsort'
        intro y hy
        obtain ⟨i, r', hhead, hle⟩ := hlb y hy
        exact le_trans (hheads' i r' hhead) hle
      · intro y hy
        rcases List.mem_cons.mp hy with hy | hy
        · exact ⟨idx, r0, ⟨rdr0, hslot⟩, by rw [hy]⟩
        · obtain ⟨i, r', hhead, hle⟩ := hlb y hy
          exact ⟨idx, r0, ⟨rdr0, hslot⟩, le_trans (hheads' i r' hhead) hle⟩

theorem fillSlots_slotInv : ∀ (rs : List (List Record)) (dups : List Fp),
    (∀ l ∈ rs, sortedByKey l) → ∀ s ∈ (fillSlots dups rs).1, SlotInv s := by
  intro rs
  induction rs with
  | nil => intro dups _ s hs; simp [fillSlots] at hs
  | cons rdr rest ih =>
    intro dups hsort s hs
    simp only [fillSlots] at hs
    rcases List.mem_cons.mp hs with hs | hs
    · rw [hs]
      exact dedupe_slotInv none
        ⟨hsort rdr (List.mem_cons_self rdr rest), fun r hr => absurd hr (by simp)⟩
    · exact ih _ (fun l hl => hsort l (List.mem_cons_of_mem rdr hl)) s hs

/-- C1: if every input record sequence is sorted by timestamp ascending
(timestamps compared as integers), the merged output of `zipreaders` is
sorted by timestamp ascending. -/
theorem claim_merge_sorted (rs : List (List Record))
    (h : ∀ l ∈ rs, sortedByKey l) : sortedByKey (zipreaders rs) := by
  unfold zipreaders
  exact (zipAuxF_sorted _ _ _ (by omega) (fillSlots_slotInv rs [] h)).1

theorem claim_merge_sorted_witness :
    (∀ l ∈ ([[(("1").data, ("0").data, ("a").data), (("3").data, ("0").data, ("b").data)],
             [(("2").data, ("0").data, ("c").data)]] : List (List Record)), sortedByKey l) ∧
    sortedByKey (zipreaders [[(("1").data, ("0").data, ("a").data),
        (("3").data, ("0").data, ("b").data)],
        [(("2").data, ("0").data, ("c").data)]]) :=
  ⟨by decide, claim_merge_sorted _ (by decide)⟩

/-! ### Tie-break determinism (C3) -/

/-- C3: whenever slot `i` holds a record with the minimal timestamp among all
pending slots, slot `i` is the first slot attaining that minimum, and some
later slot `j` holds a record with the same timestamp, the merge loop emits
slot `i`'s record next — ties are broken by source index, first-listed source
wins. -/
theorem claim_tiebreak_first (fuel : Nat) (slots : List (Option Record × List Record))
    (dups : List Fp) (i j : Nat) (ri rj : Record) (rdri rdrj : List Record)
    (hi : slots[i]? = some (some ri, rdri))
    (_hj : slots[j]? = some (some rj, rdrj))
    (hij : i < j)
    (htie : key ri = key rj)
    (hmin : ∀ (k : Nat) (r : Record), HeadAt slots k r → key ri ≤ key r)
    (hfirst : ∀ (k : Nat) (r : Record), HeadAt slots k r → key r = key ri → i ≤ k) :
    ∃ tl, zipAuxF (fuel + 1) slots dups = ri :: tl := by
  cases hsel : selIdx (slots.map Prod.fst) with
  | none =>
    exfalso
    have hall := (selIdx_none_iff _).mp hsel
    have hmem : (some ri : Option Record) ∈ slots.map Prod.fst := by
      refine getElem?_some_mem _ i _ ?_
      rw [List.getElem?_map, hi]
      rfl
    cases hall (some ri) hmem
  | some idx =>
    obtain ⟨r0, rdr0, hslot0, hmin0, hstrict0⟩ := selIdx_slots hsel
    have h1 : key r0 ≤ key ri := hmin0 i ri ⟨rdri, hi⟩
    have h2 : key ri ≤ key r0 := hmin idx r0 ⟨rdr0, hslot0⟩
    have hkey : key r0 = key ri := le_antisymm h1 h2
    have hge : i ≤ idx := hfirst idx r0 ⟨rdr0, hslot0⟩ hkey
    have hnlt : ¬ i < idx := by
      intro hlt
      have := hstrict0 i ri hlt ⟨rdri, hi⟩
      omega
    have hii : idx = i := by omega
    subst hii
    exact ⟨_, zipAuxF_step fuel slots dups idx ri rdri hsel hi⟩

theorem claim_tiebreak_first_witness :
    ∃ tl, zipAuxF 1
      [(some (("5").data, ("0").data, ("a").data), []),
       (some (("5").data, ("0").data, ("b").data), [])] [] =
      (("5").data, ("0").data, ("a").data) :: tl := by
  refine claim_tiebreak_first 0 _ [] 0 1
    (("5").data, ("0").data, ("a").data) (("5").data, ("0").data, ("b").data) [] []
    rfl rfl (by decide) (by decide) ?_ ?_
  · rintro k r ⟨rdr, hk⟩
    have hklt : k < 2 := by
      have := getElem?_some_lt _ k _ hk
      simpa using this
    interval_cases k
    · simp only [List.getElem?_cons_zero, Option.some_inj, Prod.mk.injEq] at hk
      obtain ⟨hr, -⟩ := hk
      rw [← hr]
    · simp only [List.getElem?_cons_succ, List.getElem?_cons_zero, Option.some_inj,
        Prod.mk.injEq] at hk
      obtain ⟨hr, -⟩ := hk
      rw [← hr]
      decide
  · rintro k r ⟨rdr, hk⟩ _
    exact Nat.zero_le k

/-! ### Dedup iff identical (C7) -/

/-- C7: the deduplication filter suppresses a record exactly when all three
fields equal those of an already-seen record.  The fingerprint is injective
on records (the digest's collision-freeness being the assumption both code
comment and spec make), every record the filter skips equals some seen
record, and the record it hands back equals none of them: nothing with a
differing field is ever suppressed, and everything identical to a seen
record is. -/
theorem claim_dedup_iff_identical :
    (∀ a b : Record, myhash a = myhash b ↔ a = b) ∧
    ∀ (rdr seen : List Record),
      ∃ skipped : List Record, (∀ s ∈ skipped, s ∈ seen) ∧
        ((∃ x rest, rdr = skipped ++ x :: rest ∧ x ∉ seen ∧
            dedupenext rdr (seen.map myhash) =
              (some x, myhash x :: seen.map myhash, rest)) ∨
         (rdr = skipped ∧
            dedupenext rdr (seen.map myhash) = (none, seen.map myhash, []))) := by
  constructor
  · intro a b
    exact ⟨myhash_inj a b, fun h => by rw [h]⟩
  · intro rdr seen
    rcases dedupenext_cases rdr (seen.map myhash) with
      ⟨sk, x, rest, hdec, hsk, hx, heq⟩ | ⟨hall, heq⟩
    · refine ⟨sk, ?_, Or.inl ⟨x, rest, hdec, ?_, heq⟩⟩
      · intro s hs
        obtain ⟨t, ht, hts⟩ := List.mem_map.mp (hsk s hs)
        exact (myhash_inj t s hts) ▸ ht
      · intro hxs
        exact hx (List.mem_map.mpr ⟨x, hxs, rfl⟩)
    · refine ⟨rdr, ?_, Or.inr ⟨rfl, heq⟩⟩
      intro s hs
      obtain ⟨t, ht, hts⟩ := List.mem_map.mp (hall s hs)
      exact (myhash_inj t s hts) ▸ ht

/-! ### Dedup/membership characterization of the merge loop (C2) -/

theorem zipAuxF_chars : ∀ (fuel : Nat) (slots : List (Option Record × List Record))
    (dups : List Fp), slotsWeight slots < fuel → MergeInv slots dups →
    (zipAuxF fuel slots dups).Nodup ∧
    (∀ r : Record, r ∈ zipAuxF fuel slots dups ↔
      ((∃ i : Nat, HeadAt slots i r) ∨ (RemAt slots r ∧ myhash r ∉ dups))) := by
  intro fuel
  induction fuel with
  | zero => intro slots dups hw _; exact absurd hw (by omega)
  | succ n ih =>
    intro slots dups hw hinv
    obtain ⟨hinv1, hinv2, hinv3⟩ := hinv
    cases hsel : selIdx (slots.map Prod.fst) with
    | none =>
      rw [zipAuxF_stop _ _ _ hsel]
      have hall := (selIdx_none_iff _).mp hsel
      refine ⟨List.nodup_nil, ?_⟩
      intro r
      simp only [List.not_mem_nil, false_iff]
      intro hr
      rcases hr with ⟨i, rdr, hget⟩ | ⟨⟨i, s, hget, hmem⟩, hnd⟩
      · have hm : (some r : Option Record) ∈ slots.map Prod.fst := by
          refine getElem?_some_mem _ i _ ?_
          rw [List.getElem?_map, hget]
          rfl
        cases hall _ hm
      · obtain ⟨o, rdr⟩ := s
        have ho : o = none := by
          have hm : (o : Option Record) ∈ slots.map Prod.fst := by
            refine getElem?_some_mem _ i _ ?_
            rw [List.getElem?_map, hget]
            rfl
          exact hall o hm
        subst ho
        have h0 := hinv3 i rdr hget
        rw [h0] at hmem
        cases hmem
    | some idx =>
      obtain ⟨r0, rdr0, hslot, -, -⟩ := selIdx_slots hsel
      have hlen : idx < slots.length := getElem?_some_lt _ _ _ hslot
      have hr0dups : myhash r0 ∈ dups := hinv1 idx r0 ⟨rdr0, hslot⟩
      rcases dedupenext_cases rdr0 dups with ⟨sk, x, rst, hdec, hsk, hx, heq⟩ | ⟨hall0, heq⟩
      · -- a fresh record x was pulled into the slot
        rw [zipAuxF_step n slots dups idx r0 rdr0 hsel hslot, heq]
        dsimp only
        have hinv' : MergeInv (slots.set idx (some x, rst)) (myhash x :: dups) := by
          refine ⟨?_, ?_, ?_⟩
          · rintro i r ⟨rdr', hget⟩
            by_cases hii : i = idx
            · subst hii
              rw [set_getElem?_same _ _ _ hlen, Option.some_inj, Prod.mk.injEq,
                Option.some_inj] at hget
              rw [← hget.1]
              exact List.mem_cons_self _ _
            · rw [set_getElem?_other _ idx i _ (fun h0 => hii h0.symm)] at hget
              exact List.mem_cons_of_mem _ (hinv1 i r ⟨rdr', hget⟩)
          · rintro i j ri rj hne ⟨rdri, hgi⟩ ⟨rdrj, hgj⟩
            by_cases hii : i = idx
            · subst hii
              rw [set_getElem?_same _ _ _ hlen, Option.some_inj, Prod.mk.injEq,
                Option.some_inj] at hgi
              rw [set_getElem?_other _ i j _ (fun h0 => hne h0)] at hgj
              have hj : myhash rj ∈ dups := hinv1 j rj ⟨rdrj, hgj⟩
              intro hrr
              rw [hgi.1, hrr] at hx
              exact hx hj
            · by_cases hjj : j = idx
              · subst hjj
                rw [set_getElem?_same _ _ _ hlen, Option.some_inj, Prod.mk.injEq,
                  Option.some_inj] at hgj
                rw [set_getElem?_other _ j i _ (fun h0 => hii h0.symm)] at hgi
                have hi' : myhash ri ∈ dups := hinv1 i ri ⟨rdri, hgi⟩
                intro hrr
                rw [hgj.1, ← hrr] at hx
                exact hx hi'
              · rw [set_getElem?_other _ idx i _ (fun h0 => hii h0.symm)] at hgi
                rw [set_getElem?_other _ idx j _ (fun h0 => hjj h0.symm)] at hgj
                exact hinv2 i j ri rj hne ⟨rdri, hgi⟩ ⟨rdrj, hgj⟩
          · rintro i rdr' hget
            by_cases hii : i = idx
            · subst hii
              rw [set_getElem?_same _ _ _ hlen, Option.some_inj, Prod.mk.injEq] at hget
              cases hget.1
            · rw [set_getElem?_other _ idx i _ (fun h0 => hii h0.symm)] at hget
              exact hinv3 i rdr' hget
        have hw' : slotsWeight (slots.set idx (some x, rst)) < n := by
          have h1 : slotsWeight (slots.set idx (some x, rst)) < slotsWeight slots := by
            refine slotsWeight_set_lt slots idx (some r0, rdr0) _ hslot ?_
            have h2 : slotWeight (some x, rst) = rst.length + 1 := rfl
            have h3 : slotWeight (some r0, rdr0) = rdr0.length + 1 := rfl
            have h4 : rdr0.length = sk.length + (rst.length + 1) := by
              rw [hdec]; simp [List.length_append]
            omega
          omega
        obtain ⟨hnd', hiff'⟩ := ih _ (myhash x :: dups) hw' hinv'
        have hxmem : x ∈ rdr0 := by
          rw [hdec]
          exact List.mem_append_right sk (List.mem_cons_self x rst)
        constructor
        · refine List.Nodup.cons ?_ hnd'
          intro hmem
          rcases (hiff' r0).mp hmem with ⟨i, rdr', hget⟩ | ⟨-, hnd2⟩
          · by_cases hii : i = idx
            · subst hii
              rw [set_getElem?_same _ _ _ hlen, Option.some_inj, Prod.mk.injEq,
                Option.some_inj] at hget
              rw [hget.1] at hx
              exact hx hr0dups
            · rw [set_getElem?_other _ idx i _ (fun h0 => hii h0.symm)] at hget
              exact hinv2 i idx r0 r0 hii ⟨rdr', hget⟩ ⟨rdr0, hslot⟩ rfl
          · exact hnd2 (List.mem_cons_of_mem _ hr0dups)
        · intro r
          constructor
          · intro hmem
            rcases List.mem_cons.mp hmem with hmem | hmem
            · exact Or.inl ⟨idx, rdr0, hmem ▸ hslot⟩
            · rcases (hiff' r).mp hmem with ⟨i, rdr', hget⟩ | ⟨⟨i, s, hget, hsm⟩, hnd2⟩
              · by_cases hii : i = idx
                · subst hii
                  rw [set_getElem?_same _ _ _ hlen, Option.some_inj, Prod.mk.injEq,
                    Option.some_inj] at hget
                  refine Or.inr ⟨⟨i, (some r0, rdr0), hslot, ?_⟩, ?_⟩
                  · rw [← hget.1]; exact hxmem
                  · rw [← hget.1]; exact hx
                · rw [set_getElem?_other _ idx i _ (fun h0 => hii h0.symm)] at hget
                  exact Or.inl ⟨i, rdr', hget⟩
              · have hnd3 : myhash r ∉ dups := fun h0 => hnd2 (List.mem_cons_of_mem _ h0)
                by_cases hii : i = idx
                · subst hii
                  rw [set_getElem?_same _ _ _ hlen, Option.some_inj] at hget
                  rw [← hget] at hsm
                  refine Or.inr ⟨⟨i, (some r0, rdr0), hslot, ?_⟩, hnd3⟩
                  rw [hdec]
                  exact List.mem_append_right sk (List.mem_cons_of_mem x hsm)
                · rw [set_getElem?_other _ idx i _ (fun h0 => hii h0.symm)] at hget
                  exact Or.inr ⟨⟨i, s, hget, hsm⟩, hnd3⟩
          · intro hr
            rcases hr with ⟨i, rdri, hget⟩ | ⟨⟨i, s, hget, hsm⟩, hnd2⟩
            · by_cases hii : i = idx
              · subst hii
                rw [hslot, Option.some_inj, Prod.mk.injEq, Option.some_inj] at hget
                rw [← hget.1]
                exact List.mem_cons_self _ _
              · refine List.mem_cons_of_mem _ ((hiff' r).mpr (Or.inl ⟨i, rdri, ?_⟩))
                rw [set_getElem?_other _ idx i _ (fun h0 => hii h0.symm)]
                exact hget
            · by_cases hrx : r = x
              · refine List.mem_cons_of_mem _ ((hiff' r).mpr (Or.inl ⟨idx, rst, ?_⟩))
                rw [set_getElem?_same _ _ _ hlen, hrx]
              · have hnd4 : myhash r ∉ myhash x :: dups := by
                  intro h0
                  rcases List.mem_cons.mp h0 with h0 | h0
                  · exact hrx (myhash_inj r x h0)
                  · exact hnd2 h0
                by_cases hii : i = idx
                · subst hii
                  rw [hslot, Option.some_inj] at hget
                  rw [← hget] at hsm
                  dsimp only at hsm
                  rw [hdec] at hsm
                  rcases List.mem_append.mp hsm with hsm | hsm
                  · exact absurd (hsk r hsm) hnd2
                  · rcases List.mem_cons.mp hsm with hsm | hsm
                    · exact absurd hsm hrx
                    · refine List.mem_cons_of_mem _ ((hiff' r).mpr
                        (Or.inr ⟨⟨i, (some x, rst), ?_, hsm⟩, hnd4⟩))
                      rw [set_getElem?_same _ _ _ hlen]
                · refine List.mem_cons_of_mem _ ((hiff' r).mpr
                    (Or.inr ⟨⟨i, s, ?_, hsm⟩, hnd4⟩))
                  rw [set_getElem?_other _ idx i _ (fun h0 => hii h0.symm)]
                  exact hget
      · -- the slot's reader was exhausted: slot becomes empty
        rw [zipAuxF_step n slots dups idx r0 rdr0 hsel hslot, heq]
        dsimp only
        have hinv' : MergeInv (slots.set idx (none, [])) dups := by
          refine ⟨?_, ?_, ?_⟩
          · rintro i r ⟨rdr', hget⟩
            by_cases hii : i = idx
            · subst hii
              rw [set_getElem?_same _ _ _ hlen, Option.some_inj, Prod.mk.injEq] at hget
              cases hget.1
            · rw [set_getElem?_other _ idx i _ (fun h0 => hii h0.symm)] at hget
              exact hinv1 i r ⟨rdr', hget⟩
          · rintro i j ri rj hne ⟨rdri, hgi⟩ ⟨rdrj, hgj⟩
            by_cases hii : i = idx
            · subst hii
              rw [set_getElem?_same _ _ _ hlen, Option.some_inj, Prod.mk.injEq] at hgi
              cases hgi.1
            · by_cases hjj : j = idx
              · subst hjj
                rw [set_getElem?_same _ _ _ hlen, Option.some_inj, Prod.mk.injEq] at hgj
                cases hgj.1
              · rw [set_getElem?_other _ idx i _ (fun h0 => hii h0.symm)] at hgi
                rw [set_getElem?_other _ idx j _ (fun h0 => hjj h0.symm)] at hgj
                exact hinv2 i j ri rj hne ⟨rdri, hgi⟩ ⟨rdrj, hgj⟩
          · rintro i rdr' hget
            by_cases hii : i = idx
            · subst hii
              rw [set_getElem?_same _ _ _ hlen, Option.some_inj, Prod.mk.injEq] at hget
              exact hget.2.symm
            · rw [set_getElem?_other _ idx i _ (fun h0 => hii h0.symm)] at hget
              exact hinv3 i rdr' hget
        have hw' : slotsWeight (slots.set idx (none, [])) < n := by
          have h1 : slotsWeight (slots.set idx (none, [])) < slotsWeight slots := by
            refine slotsWeight_set_lt slots idx (some r0, rdr0) _ hslot ?_
            have h2 : slotWeight ((none : Option Record), ([] : List Record)) = 0 := rfl
            have h3 : slotWeight (some r0, rdr0) = rdr0.length + 1 := rfl
            omega
          omega
        obtain ⟨hnd', hiff'⟩ := ih _ dups hw' hinv'
        constructor
        · refine List.Nodup.cons ?_ hnd'
          intro hmem
          rcases (hiff' r0).mp hmem with ⟨i, rdr', hget⟩ | ⟨-, hnd2⟩
          · by_cases hii : i = idx
            · subst hii
              rw [set_getElem?_same _ _ _ hlen, Option.some_inj, Prod.mk.injEq] at hget
              cases hget.1
            · rw [set_getElem?_other _ idx i _ (fun h0 => hii h0.symm)] at hget
              exact hinv2 i idx r0 r0 hii ⟨rdr', hget⟩ ⟨rdr0, hslot⟩ rfl
          · exact hnd2 hr0dups
        · intro r
          constructor
          · intro hmem
            rcases List.mem_cons.mp hmem with hmem | hmem
            · exact Or.inl ⟨idx, rdr0, hmem ▸ hslot⟩
            · rcases (hiff' r).mp hmem with ⟨i, rdr', hget⟩ | ⟨⟨i, s, hget, hsm⟩, hnd2⟩
              · by_cases hii : i = idx
                · subst hii
                  rw [set_getElem?_same _ _ _ hlen, Option.some_inj, Prod.mk.injEq] at hget
                  cases hget.1
                · rw [set_getElem?_other _ idx i _ (fun h0 => hii h0.symm)] at hget
                  exact Or.inl ⟨i, rdr', hget⟩
              · by_cases hii : i = idx
                · subst hii
                  rw [set_getElem?_same _ _ _ hlen, Option.some_inj] at hget
                  rw [← hget] at hsm
                  cases hsm
                · rw [set_getElem?_other _ idx i _ (fun h0 => hii h0.symm)] at hget
                  exact Or.inr ⟨⟨i, s, hget, hsm⟩, hnd2⟩
          · intro hr
            rcases hr with ⟨i, rdri, hget⟩ | ⟨⟨i, s, hget, hsm⟩, hnd2⟩
            · by_cases hii : i = idx
              · subst hii
                rw [hslot, Option.some_inj, Prod.mk.injEq, Option.some_inj] at hget
                rw [← hget.1]
                exact List.mem_cons_self _ _
              · refine List.mem_cons_of_mem _ ((hiff' r).mpr (Or.inl ⟨i, rdri, ?_⟩))
                rw [set_getElem?_other _ idx i _ (fun h0 => hii h0.symm)]
                exact hget
            · by_cases hii : i = idx
              · subst hii
                rw [hslot, Option.some_inj] at hget
                rw [← hget] at hsm
                dsimp only at hsm
                exact absurd (hall0 r hsm) hnd2
              · refine List.mem_cons_of_mem _ ((hiff' r).mpr
                  (Or.inr ⟨⟨i, s, ?_, hsm⟩, hnd2⟩))
                rw [set_getElem?_other _ idx i _ (fun h0 => hii h0.symm)]
                exact hget

theorem headAt_cons_zero {s : Option Record × List Record}
    {slots : List (Option Record × List Record)} {r : Record} :
    HeadAt (s :: slots) 0 r ↔ ∃ rdr, s = (some r, rdr) := by
  unfold HeadAt
  simp [List.getElem?_cons_zero]

theorem headAt_cons_succ {s : Option Record × List Record}
    {slots : List (Option Record × List Record)} {j : Nat} {r : Record} :
    HeadAt (s :: slots) (j + 1) r ↔ HeadAt slots j r := by
  unfold HeadAt
  simp [List.getElem?_cons_succ]

theorem headAt_cons_ex {s : Option Record × List Record}
    {slots : List (Option Record × List Record)} {r : Record} :
    (∃ i : Nat, HeadAt (s :: slots) i r) ↔
      ((∃ rdr, s = (some r, rdr)) ∨ (∃ i : Nat, HeadAt slots i r)) := by
  constructor
  · rintro ⟨i, hi⟩
    cases i with
    | zero => exact Or.inl (headAt_cons_zero.mp hi)
    | succ j => exact Or.inr ⟨j, headAt_cons_succ.mp hi⟩
  · rintro (⟨rdr, h⟩ | ⟨i, hi⟩)
    · exact ⟨0, headAt_cons_zero.mpr ⟨rdr, h⟩⟩
    · exact ⟨i + 1, headAt_cons_succ.mpr hi⟩

theorem remAt_cons {s : Option Record × List Record}
    {slots : List (Option Record × List Record)} {r : Record} :
    RemAt (s :: slots) r ↔ (r ∈ s.2 ∨ RemAt slots r) := by
  unfold RemAt
  constructor
  · rintro ⟨i, s', hget, hmem⟩
    cases i with
    | zero =>
      simp only [List.getElem?_cons_zero, Option.some_inj] at hget
      exact Or.inl (hget ▸ hmem)
    | succ j => exact Or.inr ⟨j, s', by simpa using hget, hmem⟩
  · rintro (h | ⟨i, s', hget, hmem⟩)
    · exact ⟨0, s, by simp, h⟩
    · exact ⟨i + 1, s', by simpa using hget, hmem⟩

theorem fillSlots_chars : ∀ (rs : List (List Record)) (dups : List Fp),
    MergeInv (fillSlots dups rs).1 (fillSlots dups rs).2 ∧
    (∀ h ∈ (fillSlots dups rs).2, h ∈ dups ∨
      ∃ (i : Nat) (r : Record), HeadAt (fillSlots dups rs).1 i r ∧ h = myhash r) ∧
    (∀ d ∈ dups, d ∈ (fillSlots dups rs).2) ∧
    (∀ (i : Nat) (r : Record), HeadAt (fillSlots dups rs).1 i r →
      r ∈ rs.flatten ∧ myhash r ∉ dups) ∧
    (∀ r : Record, RemAt (fillSlots dups rs).1 r → r ∈ rs.flatten) ∧
    (∀ r ∈ rs.flatten, (∃ i : Nat, HeadAt (fillSlots dups rs).1 i r) ∨
      RemAt (fillSlots dups rs).1 r ∨ myhash r ∈ dups) := by
  intro rs
  induction rs with
  | nil =>
    intro dups
    refine ⟨⟨?_, ?_, ?_⟩, ?_, ?_, ?_, ?_, ?_⟩
    · rintro i r ⟨rdr, hget⟩; simp [fillSlots] at hget
    · rintro i j ri rj hne ⟨rdri, hgi⟩; simp [fillSlots] at hgi
    · rintro i rdr hget; simp [fillSlots] at hget
    · intro h hh; exact Or.inl hh
    · intro d hd; exact hd
    · rintro i r ⟨rdr, hget⟩; simp [fillSlots] at hget
    · rintro r ⟨i, s, hget, -⟩; simp [fillSlots] at hget
    · intro r hr; simp at hr
  | cons rdr rest ih =>
    intro dups
    obtain ⟨⟨iinv1, iinv2, iinv3⟩, ih2, ih3, ih4, ih5, ih6⟩ :=
      ih (dedupenext rdr dups).2.1
    rcases dedupenext_cases rdr dups with ⟨sk, x, rst, hdec, hsk, hx, heq⟩ | ⟨hall, heq⟩
    · -- the first reader yields a fresh head x
      have hfs : fillSlots dups (rdr :: rest) =
          ((some x, rst) :: (fillSlots (myhash x :: dups) rest).1,
           (fillSlots (myhash x :: dups) rest).2) := by
        simp [fillSlots, heq]
      rw [heq] at ih2 ih3 ih4 ih5 ih6 iinv1 iinv2 iinv3
      dsimp only at ih2 ih3 ih4 ih5 ih6 iinv1 iinv2 iinv3
      rw [hfs]
      dsimp only
      have hxrdr : x ∈ rdr := by
        rw [hdec]; exact List.mem_append_right sk (List.mem_cons_self x rst)
      refine ⟨⟨?_, ?_, ?_⟩, ?_, ?_, ?_, ?_, ?_⟩
      · rintro i r hi
        cases i with
        | zero =>
          obtain ⟨rdr', hs⟩ := headAt_cons_zero.mp hi
          have hxr : x = r := by
            have := congrArg Prod.fst hs
            simpa using this
          rw [← hxr]
          exact ih3 (myhash x) (List.mem_cons_self _ _)
        | succ j => exact iinv1 j r (headAt_cons_succ.mp hi)
      · rintro i j ri rj hne hi hj
        cases i with
        | zero =>
          obtain ⟨rdri, hsi⟩ := headAt_cons_zero.mp hi
          have hxi : x = ri := by
            have := congrArg Prod.fst hsi
            simpa using this
          cases j with
          | zero => exact absurd rfl hne
          | succ k =>
            have hre := ih4 k rj (headAt_cons_succ.mp hj)
            intro hrr
            exact hre.2 (by rw [← hrr, ← hxi]; exact List.mem_cons_self _ _)
        | succ k =>
          cases j with
          | zero =>
            obtain ⟨rdrj, hsj⟩ := headAt_cons_zero.mp hj
            have hxj : x = rj := by
              have := congrArg Prod.fst hsj
              simpa using this
            have hre := ih4 k ri (headAt_cons_succ.mp hi)
            intro hrr
            exact hre.2 (by rw [hrr, ← hxj]; exact List.mem_cons_self _ _)
          | succ m =>
            exact iinv2 k m ri rj (fun h0 => hne (by omega))
              (headAt_cons_succ.mp hi) (headAt_cons_succ.mp hj)
      · rintro i rdr' hget
        cases i with
        | zero =>
          simp only [List.getElem?_cons_zero, Option.some_inj, Prod.mk.injEq] at hget
          cases hget.1
        | succ j =>
          simp only [List.getElem?_cons_succ] at hget
          exact iinv3 j rdr' hget
      · intro h hh
        rcases ih2 h hh with hh' | ⟨i, r, hhead, he⟩
        · rcases List.mem_cons.mp hh' with hh' | hh'
          · exact Or.inr ⟨0, x, headAt_cons_zero.mpr ⟨rst, rfl⟩, hh'⟩
          · exact Or.inl hh'
        · exact Or.inr ⟨i + 1, r, headAt_cons_succ.mpr hhead, he⟩
      · intro d hd
        exact ih3 d (List.mem_cons_of_mem _ hd)
      · rintro i r hi
        cases i with
        | zero =>
          obtain ⟨rdr', hs⟩ := headAt_cons_zero.mp hi
          have hxr : x = r := by
            have := congrArg Prod.fst hs
            simpa using this
          rw [← hxr]
          constructor
          · simp only [List.flatten_cons]
            exact List.mem_append_left _ hxrdr
          · exact hx
        | succ j =>
          have h4 := ih4 j r (headAt_cons_succ.mp hi)
          constructor
          · simp only [List.flatten_cons]
            exact List.mem_append_right _ h4.1
          · exact fun h0 => h4.2 (List.mem_cons_of_mem _ h0)
      · intro r hr
        rcases remAt_cons.mp hr with hr | hr
        · simp only [List.flatten_cons]
          refine List.mem_append_left _ ?_
          rw [hdec]
          exact List.mem_append_right sk (List.mem_cons_of_mem x hr)
        · simp only [List.flatten_cons]
          exact List.mem_append_right _ (ih5 r hr)
      · intro r hr
        simp only [List.flatten_cons] at hr
        rcases List.mem_append.mp hr with hr | hr
        · rw [hdec] at hr
          rcases List.mem_append.mp hr with hr | hr
          · exact Or.inr (Or.inr (hsk r hr))
          · rcases List.mem_cons.mp hr with hr | hr
            · exact Or.inl ⟨0, headAt_cons_zero.mpr ⟨rst, by rw [hr]⟩⟩
            · exact Or.inr (Or.inl (remAt_cons.mpr (Or.inl hr)))
        · rcases ih6 r hr with ⟨i, hhead⟩ | hr' | hr'
          · exact Or.inl ⟨i + 1, headAt_cons_succ.mpr hhead⟩
          · exact Or.inr (Or.inl (remAt_cons.mpr (Or.inr hr')))
          · rcases List.mem_cons.mp hr' with hr'' | hr''
            · refine Or.inl ⟨0, headAt_cons_zero.mpr ⟨rst, ?_⟩⟩
              rw [myhash_inj r x hr'']
            · exact Or.inr (Or.inr hr'')
    · -- the first reader is exhausted entirely
      have hfs : fillSlots dups (rdr :: rest) =
          ((none, []) :: (fillSlots dups rest).1, (fillSlots dups rest).2) := by
        simp [fillSlots, heq]
      rw [heq] at ih2 ih3 ih4 ih5 ih6 iinv1 iinv2 iinv3
      dsimp only at ih2 ih3 ih4 ih5 ih6 iinv1 iinv2 iinv3
      rw [hfs]
      dsimp only
      refine ⟨⟨?_, ?_, ?_⟩, ?_, ?_, ?_, ?_, ?_⟩
      · rintro i r hi
        cases i with
        | zero =>
          obtain ⟨rdr', hs⟩ := headAt_cons_zero.mp hi
          have : (none : Option Record) = some r := by
            have h0 := congrArg Prod.fst hs
            simp at h0
          cases this
        | succ j => exact iinv1 j r (headAt_cons_succ.mp hi)
      · rintro i j ri rj hne hi hj
        cases i with
        | zero =>
          obtain ⟨rdri, hsi⟩ := headAt_cons_zero.mp hi
          have h0 := congrArg Prod.fst hsi
          simp at h0
        | succ k =>
          cases j with
          | zero =>
            obtain ⟨rdrj, hsj⟩ := headAt_cons_zero.mp hj
            have h0 := congrArg Prod.fst hsj
            simp at h0
          | succ m =>
            exact iinv2 k m ri rj (fun h0 => hne (by omega))
              (headAt_cons_succ.mp hi) (headAt_cons_succ.mp hj)
      · rintro i rdr' hget
        cases i with
        | zero =>
          simp only [List.getElem?_cons_zero, Option.some_inj, Prod.mk.injEq] at hget
          exact hget.2.symm
        | succ j =>
          simp only [List.getElem?_cons_succ] at hget
          exact iinv3 j rdr' hget
      · intro h hh
        rcases ih2 h hh with hh' | ⟨i, r, hhead, he⟩
        · exact Or.inl hh'
        · exact Or.inr ⟨i + 1, r, headAt_cons_succ.mpr hhead, he⟩
      · intro d hd
        exact ih3 d hd
      · rintro i r hi
        cases i with
        | zero =>
          obtain ⟨rdr', hs⟩ := headAt_cons_zero.mp hi
          have : (none : Option Record) = some r := by
            have h0 := congrArg Prod.fst hs
            simp at h0
          cases this
        | succ j =>
          have h4 := ih4 j r (headAt_cons_succ.mp hi)
          refine ⟨?_, h4.2⟩
          simp only [List.flatten_cons]
          exact List.mem_append_right _ h4.1
      · intro r hr
        rcases remAt_cons.mp hr with hr | hr
        · cases hr
        · simp only [List.flatten_cons]
          exact List.mem_append_right _ (ih5 r hr)
      · intro r hr
        simp only [List.flatten_cons] at hr
        rcases List.mem_append.mp hr with hr | hr
        · exact Or.inr (Or.inr (hall r hr))
        · rcases ih6 r hr with ⟨i, hhead⟩ | hr' | hr'
          · exact Or.inl ⟨i + 1, headAt_cons_succ.mpr hhead⟩
          · exact Or.inr (Or.inl (remAt_cons.mpr (Or.inr hr')))
          · exact Or.inr (Or.inr hr')

/-- C2: for any collection of input record sequences, the merged output of
`zipreaders` contains every distinct record exactly once — it is
duplicate-free, its members are exactly the records of all inputs (dedup is
global across sources), and its length is the number of distinct records,
that is, M − D where M is the total record count and D the number of
duplicate occurrences beyond each record's first. -/
theorem claim_dedup_counts (rs : List (List Record)) :
    (zipreaders rs).Nodup ∧
    (∀ r : Record, r ∈ zipreaders rs ↔ r ∈ rs.flatten) ∧
    (zipreaders rs).length = rs.flatten.dedup.length := by
  obtain ⟨hmi, h2, h3, h4, h5, h6⟩ := fillSlots_chars rs []
  have hzip : zipreaders rs =
      zipAuxF (slotsWeight (fillSlots [] rs).1 + 1) (fillSlots [] rs).1
        (fillSlots [] rs).2 := rfl
  obtain ⟨hnd, hiff⟩ := zipAuxF_chars (slotsWeight (fillSlots [] rs).1 + 1)
    (fillSlots [] rs).1 (fillSlots [] rs).2 (by omega) hmi
  rw [hzip]
  have hmem : ∀ r : Record,
      r ∈ zipAuxF (slotsWeight (fillSlots [] rs).1 + 1) (fillSlots [] rs).1
        (fillSlots [] rs).2 ↔ r ∈ rs.flatten := by
    intro r
    rw [hiff r]
    constructor
    · rintro (⟨i, hh⟩ | ⟨hrem, -⟩)
      · exact (h4 i r hh).1
      · exact h5 r hrem
    · intro hr
      rcases h6 r hr with h | h | h
      · exact Or.inl h
      · by_cases hd : myhash r ∈ (fillSlots [] rs).2
        · rcases h2 _ hd with hh | ⟨i, r', hh, hr'⟩
          · cases hh
          · exact Or.inl ⟨i, (myhash_inj r r' hr') ▸ hh⟩
        · exact Or.inr ⟨h, hd⟩
      · cases h
  refine ⟨hnd, hmem, ?_⟩
  have c1 := List.toFinset_card_of_nodup hnd
  have c2 := List.toFinset_card_of_nodup (List.nodup_dedup rs.flatten)
  have hts : (zipAuxF (slotsWeight (fillSlots [] rs).1 + 1) (fillSlots [] rs).1
      (fillSlots [] rs).2).toFinset = rs.flatten.dedup.toFinset := by
    ext a
    simp only [List.mem_toFinset, List.mem_dedup]
    exact hmem a
  rw [← c1, ← c2, hts]
